import Mathlib

/-!
# Verification of the `make_pattern` path-pattern compressor

Shallow embedding of `make_pattern` from `src/nidaqmx/libnidaqmx.py`
(lines 271-338) together with proofs about the claims of the spec.

Modelling decisions, all documented at the relevant definition:

* Python (2.x) strings are modelled as `List Char` (`Str`).  The source file
  uses byte strings; on ASCII data, Python's byte-wise lexicographic string
  order coincides with the `List Char` lexicographic order used here.
* Python's `None` failure sentinel is modelled as `Option.none`; a raised
  exception (`AssertionError` from the `assert flag` statement,
  `ValueError` from `int(...)`) is modelled as the `Except.error` layer.
* Python's `set` has an unspecified iteration order; `list(patterns[prefix])`
  is modelled canonically as the *sorted* list of the (de-duplicated)
  suffixes.  The order is observable only through the position of the
  `assert` failure on mixed-shape recursive sub-inputs.
* The recursion of the source is plain (unbounded); here it is expressed
  with a fuel parameter (`makePatternF`), and `makePattern` runs it with
  fuel `maxSegCount paths`.  The theorem for claim C9 proves that this much
  fuel is always sufficient (any larger fuel gives the same result), i.e.
  the recursion depth of the source is bounded by the maximum path segment
  count, so `makePattern` agrees with the unbounded recursion everywhere.
-/

namespace LibNi

/-- Python strings (the source operates on byte strings). -/
abbrev Str := List Char

/-- Exceptions the source can raise, plus the fuel-exhaustion marker of the
embedding (proved unreachable for the fuel chosen by `makePattern`). -/
inductive PyErr where
  | assertionError
  | valueError
  | fuelOut
deriving DecidableEq

deriving instance DecidableEq for Except

/-- `if path.startswith('/'): path = path[1:]` (line 284-285). -/
def pstrip : Str → Str
  | [] => []
  | c :: rest => if c = '/' then rest else c :: rest

/-- `'/' in path` as a boolean. -/
def hasSlash (q : Str) : Bool := decide ('/' ∈ q)

/-- `len(path.split('/',1)) == 1` for the stripped path: the bare-token test
of line 287. -/
def isBareB (p : Str) : Bool := !hasSlash (pstrip p)

def notSlash (c : Char) : Bool := decide (c ≠ '/')

def notDigit (c : Char) : Bool := !c.isDigit

/-- `path.split('/',1)` for a path containing `'/'` (line 286): everything
before the first slash, and everything after it. -/
def splitSlash (q : Str) : Str × Str :=
  (q.takeWhile notSlash, (q.dropWhile notSlash).tail)

/-- Lines 291-297: a bare token is cut at its first digit character,
`splitted = [word[:i], word[i:]]`. -/
def splitBare (w : Str) : Str × Str :=
  (w.takeWhile notDigit, w.dropWhile notDigit)

/-- The (prefix, suffix-candidate) decomposition of one input path:
strip a leading slash, then split at the first `'/'` if there is one,
otherwise at the first digit. -/
def splitPath (p : Str) : Str × Str :=
  let q := pstrip p
  if hasSlash q then splitSlash q else splitBare q

/-- The `patterns` dict (line 281): association list from prefix to the list
of distinct suffix candidates in insertion order (Python uses a dict of
sets; key order is irrelevant because emission sorts the keys, and the
value order is canonicalised by `sortedSuffixes`). -/
abbrev GroupState := List (Str × List Str)

/-- `set.update` with a single element: add `v` if not already present. -/
def addIfNew (vs : List Str) (v : Str) : List Str :=
  if v ∈ vs then vs else vs ++ [v]

/-- Lines 298-301: `patterns.setdefault(splitted[0], set()).update(splitted[1:])`. -/
def insertPat : GroupState → Str → Str → GroupState
  | [], k, v => [(k, [v])]
  | (k', vs) :: rest, k, v =>
    if k' = k then (k', addIfNew vs v) :: rest else (k', vs) :: insertPat rest k v

/-- `patterns[k]`, with `[]` for an absent key. -/
def getGroup : GroupState → Str → List Str
  | [], _ => []
  | (k', vs) :: rest, k => if k' = k then vs else getGroup rest k

/-- `sorted(patterns.keys())` (line 304). -/
def sortedKeys (st : GroupState) : List Str :=
  List.insertionSort (· ≤ ·) (st.map Prod.fst)

/-- `list(patterns[prefix])` (line 305), canonicalised to sorted order
(Python's set iteration order is unspecified). -/
def sortedSuffixes (st : GroupState) (k : Str) : List Str :=
  List.insertionSort (· ≤ ·) (getGroup st k)

/-- The grouping loop, lines 283-301: strip, split, assert-check for bare
tokens, update `flag`, update `patterns`. -/
def buildLoop : List Str → GroupState → Bool → Except PyErr (GroupState × Bool)
  | [], st, flag => .ok (st, flag)
  | p :: rest, st, flag =>
    if isBareB p then
      if st ≠ [] ∧ flag = false then .error .assertionError
      else buildLoop rest (insertPat st (splitPath p).1 (splitPath p).2) true
    else buildLoop rest (insertPat st (splitPath p).1 (splitPath p).2) flag

/-- Decimal value of a digit string. -/
def digitsVal (l : Str) : Nat := l.foldl (fun n c => 10 * n + (c.toNat - 48)) 0

/-- Strip leading and trailing whitespace (Python's `int` ignores it). -/
def trimWs (l : Str) : Str :=
  ((l.dropWhile Char.isWhitespace).reverse.dropWhile Char.isWhitespace).reverse

/-- Python's `int(s)` for base 10: optional surrounding whitespace, optional
sign, then at least one ASCII digit; anything else raises `ValueError`
(modelled as `none`). -/
def pyInt (s : Str) : Option Int :=
  match trimWs s with
  | '-' :: rest =>
    if rest ≠ [] ∧ rest.all Char.isDigit then some (-(digitsVal rest : Int)) else none
  | '+' :: rest =>
    if rest ≠ [] ∧ rest.all Char.isDigit then some (digitsVal rest : Int) else none
  | t => if t ≠ [] ∧ t.all Char.isDigit then some (digitsVal t : Int) else none

/-- `[int(i) for i in lst]`, `none` when some element raises `ValueError`. -/
def allInts : List Str → Option (List Int)
  | [] => some []
  | s :: rest =>
    match pyInt s, allInts rest with
    | some i, some is => some (i :: is)
    | _, _ => none

/-- `n` consecutive integers counting up from `x`. -/
def intRangeGo : Nat → Int → List Int
  | 0, _ => []
  | n + 1, x => x :: intRangeGo n (x + 1)

/-- Python 2's `range(a, b + 1)`: the consecutive integers from `a` to `b`. -/
def intRangeList (a b : Int) : List Int := intRangeGo (b + 1 - a).toNat a

/-- `str(i)` for a Python integer. -/
def intStr (i : Int) : Str := (toString i).data

/-- Lines 326-335, the empty-prefix numeric branch:
`slst = sorted(int(i) for i in lst)` (a `ValueError` from `int` escapes),
emit `str(slst[0])` when there is one value, emit `'min:max'` when `slst`
equals `range(slst[0], slst[-1]+1)`, otherwise `return None`. -/
def numClause (lst : List Str) : Except PyErr (Option Str) :=
  match allInts lst with
  | none => .error .valueError
  | some ints =>
    let slst := List.insertionSort (· ≤ ·) ints
    if slst.length = 1 then .ok (some (intStr (slst.headD 0)))
    else if slst = intRangeList (slst.headD 0) (slst.getLastD 0) then
      .ok (some (intStr (slst.headD 0) ++ [':'] ++ intStr (slst.getLastD 0)))
    else .ok none

/-- `','.join(paths)`. -/
def joinPaths (paths : List Str) : Str := List.intercalate [','] paths

/-- Lines 320-321: `if ',' in subpattern: subpattern = '{%s}' % subpattern`. -/
def braceWrap (s : Str) : Str := if ',' ∈ s then '{' :: (s ++ ['}']) else s

/-- The emission loop over the sorted prefixes, lines 303-337.  `rec` is the
recursive call `make_pattern(lst, _main=False)` of line 313; `main` is the
`_main` argument; `paths` is kept for the fallback `','.join(paths)` of
line 316; `r` is the accumulated clause list. -/
def emitLoop (rec : List Str → Except PyErr (Option Str)) (main : Bool)
    (paths : List Str) (flag : Bool) (st : GroupState) :
    List Str → List Str → Except PyErr (Option Str)
  | [], r => .ok (some (joinPaths r))
  | k :: ks, r =>
    match sortedSuffixes st k with
    | [] => emitLoop rec main paths flag st ks (r ++ [k])
    | [v] =>
      emitLoop rec main paths flag st ks (r ++ [if flag then k ++ v else k ++ '/' :: v])
    | v₀ :: v₁ :: vs =>
      if k ≠ [] then
        match rec (v₀ :: v₁ :: vs) with
        | .error e => .error e
        | .ok none => if main then .ok (some (joinPaths paths)) else .ok none
        | .ok (some sub) =>
          emitLoop rec main paths flag st ks
            (r ++ [if flag then k ++ braceWrap sub else k ++ '/' :: braceWrap sub])
      else
        match numClause (v₀ :: v₁ :: vs) with
        | .error e => .error e
        | .ok none => .ok none
        | .ok (some c) => emitLoop rec main paths flag st ks (r ++ [c])

/-- One call body of `make_pattern`: grouping pass then emission. -/
def mkpBody (rec : List Str → Except PyErr (Option Str)) (main : Bool)
    (paths : List Str) : Except PyErr (Option Str) :=
  match buildLoop paths [] false with
  | .error e => .error e
  | .ok (st, flag) => emitLoop rec main paths flag st (sortedKeys st) []

/-- Number of `'/'`-separated segments of a path (leading slash stripped). -/
def segCount (p : Str) : Nat := (pstrip p).count '/' + 1

/-- Maximum segment count over an input list. -/
def maxSegCount (paths : List Str) : Nat :=
  paths.foldr (fun p m => max (segCount p) m) 0

/-- `make_pattern` with explicit recursion fuel: each nested recursive call
(always with `_main=False`, line 313) consumes one unit. -/
def makePatternF : Nat → Bool → List Str → Except PyErr (Option Str)
  | 0 => mkpBody (fun _ => .error .fuelOut)
  | fuel + 1 => mkpBody (makePatternF fuel false)

/-- `make_pattern(paths, _main)` : fuel `maxSegCount paths` is sufficient
(theorem for claim C9), so this is the function computed by the source's
unbounded recursion. -/
def makePattern (main : Bool) (paths : List Str) : Except PyErr (Option Str) :=
  makePatternF (maxSegCount paths) main paths

/-- The clause computed for one prefix `k` by the body of the emission loop
(the `r.append(...)` argument), with both failure modes mapped to their
non-outermost outcome.  Used to state the per-clause claims (C7, C8). -/
def clauseOf (rec : List Str → Except PyErr (Option Str)) (flag : Bool)
    (st : GroupState) (k : Str) : Except PyErr (Option Str) :=
  match sortedSuffixes st k with
  | [] => .ok (some k)
  | [v] => .ok (some (if flag then k ++ v else k ++ '/' :: v))
  | v₀ :: v₁ :: vs =>
    if k ≠ [] then
      match rec (v₀ :: v₁ :: vs) with
      | .error e => .error e
      | .ok none => .ok none
      | .ok (some sub) =>
        .ok (some (if flag then k ++ braceWrap sub else k ++ '/' :: braceWrap sub))
    else numClause (v₀ :: v₁ :: vs)

/-- The list of successful clauses for a key list (`none` as soon as one key
does not produce a clause). -/
def clausesOf (rec : List Str → Except PyErr (Option Str)) (flag : Bool)
    (st : GroupState) : List Str → Option (List Str)
  | [] => some []
  | k :: ks =>
    match clauseOf rec flag st k with
    | .ok (some c) =>
      match clausesOf rec flag st ks with
      | some cs => some (c :: cs)
      | none => none
    | _ => none

/-- Shape uniformity: after leading-slash stripping, either no path contains
`'/'` or every path does. -/
def shapeUniformB (paths : List Str) : Bool :=
  paths.all isBareB || paths.all (fun p => !isBareB p)

def shapeUniform (paths : List Str) : Prop := shapeUniformB paths = true

/-- A path that is slash-free and starts with a digit (or is empty): its
split prefix is empty, so it can never cause a recursive call. -/
def flatElemB (v : Str) : Bool :=
  !hasSlash v &&
    (match v with
     | [] => true
     | c :: _ => c.isDigit)

/-- De-duplication keeping the first occurrence of each path. -/
def dedupAux : List Str → List Str → List Str
  | [], _ => []
  | p :: rest, seen =>
    if p ∈ seen then dedupAux rest seen else p :: dedupAux rest (p :: seen)

def dedupF (l : List Str) : List Str := dedupAux l []

/-- `Except` success test. -/
def exceptOk {ε α : Type} : Except ε α → Bool
  | .ok _ => true
  | .error _ => false

/-- Pure view of the grouping pass: the `patterns` dict built by the loop,
ignoring the assertion. -/
def buildSt (paths : List Str) (st : GroupState) : GroupState :=
  paths.foldl (fun acc p => insertPat acc (splitPath p).1 (splitPath p).2) st

/-- Invariant of the `patterns` dict: distinct keys, and every suffix set is
non-empty and duplicate-free. -/
def StInv (st : GroupState) : Prop :=
  (st.map Prod.fst).Nodup ∧ ∀ kv ∈ st, kv.2 ≠ [] ∧ kv.2.Nodup

end LibNi

namespace LibNi

/-! ## Basic lemmas about the split functions -/

theorem hasSlash_iff {q : Str} : hasSlash q = true ↔ '/' ∈ q := by
  simp [hasSlash]

theorem hasSlash_false_iff {q : Str} : hasSlash q = false ↔ '/' ∉ q := by
  simp [hasSlash]

theorem notSlash_iff {c : Char} : notSlash c = true ↔ c ≠ '/' := by
  simp [notSlash]

theorem pstrip_length_le (p : Str) : (pstrip p).length ≤ p.length := by
  cases p with
  | nil => simp [pstrip]
  | cons c rest => by_cases h : c = '/' <;> simp [pstrip, h]

theorem pstrip_count_le (p : Str) : (pstrip p).count '/' ≤ p.count '/' := by
  cases p with
  | nil => simp [pstrip]
  | cons c rest =>
    by_cases h : c = '/' <;> simp [pstrip, h, List.count_cons]

theorem pstrip_of_head_ne {c : Char} {rest : Str} (h : c ≠ '/') :
    pstrip (c :: rest) = c :: rest := by
  simp [pstrip, h]

theorem pstrip_of_not_mem {p : Str} (h : '/' ∉ p) : pstrip p = p := by
  cases p with
  | nil => rfl
  | cons c rest =>
    have : c ≠ '/' := fun hc => h (hc ▸ List.mem_cons_self c rest)
    exact pstrip_of_head_ne this

theorem dropWhile_head_false {p : Char → Bool} :
    ∀ {l : Str} {c : Char} {t : Str}, l.dropWhile p = c :: t → p c = false
  | [], c, t, h => by simp [List.dropWhile] at h
  | a :: l, c, t, h => by
    by_cases ha : p a
    · rw [List.dropWhile_cons_of_pos ha] at h
      exact dropWhile_head_false h
    · rw [List.dropWhile_cons_of_neg ha] at h
      cases h
      exact Bool.of_not_eq_true ha

theorem takeWhile_all {p : Char → Bool} :
    ∀ {l : Str}, (∀ c ∈ l, p c = true) → l.takeWhile p = l
  | [], _ => rfl
  | a :: l, h => by
    rw [List.takeWhile_cons_of_pos (h a (List.mem_cons_self a l))]
    exact congrArg (a :: ·) (takeWhile_all fun c hc => h c (List.mem_cons_of_mem a hc))

theorem dropWhile_all {p : Char → Bool} :
    ∀ {l : Str}, (∀ c ∈ l, p c = true) → l.dropWhile p = []
  | [], _ => rfl
  | a :: l, h => by
    rw [List.dropWhile_cons_of_pos (h a (List.mem_cons_self a l))]
    exact dropWhile_all fun c hc => h c (List.mem_cons_of_mem a hc)

theorem mem_takeWhile_pred {p : Char → Bool} {l : Str} {c : Char}
    (h : c ∈ l.takeWhile p) : p c = true := by
  induction l with
  | nil => simp [List.takeWhile] at h
  | cons a l ih =>
    by_cases ha : p a
    · rw [List.takeWhile_cons_of_pos ha] at h
      rcases List.mem_cons.1 h with rfl | h
      · exact ha
      · exact ih h
    · rw [List.takeWhile_cons_of_neg ha] at h
      cases h

/-- A slash-containing (stripped) path decomposes as
`prefix ++ '/' :: suffix` around its first slash. -/
theorem splitPath_slash_decomp {p : Str} (h : isBareB p = false) :
    pstrip p = (splitPath p).1 ++ '/' :: (splitPath p).2 := by
  have hs : hasSlash (pstrip p) = true := by
    simpa [isBareB] using h
  have hmem : '/' ∈ pstrip p := hasSlash_iff.1 hs
  have hsplit : (pstrip p).takeWhile notSlash ++ (pstrip p).dropWhile notSlash = pstrip p :=
    List.takeWhile_append_dropWhile notSlash (pstrip p)
  have hdrop : ∃ t, (pstrip p).dropWhile notSlash = '/' :: t := by
    cases hd : (pstrip p).dropWhile notSlash with
    | nil =>
      exfalso
      have : '/' ∈ (pstrip p).takeWhile notSlash := by
        rw [← hsplit] at hmem
        simpa [hd] using hmem
      have := mem_takeWhile_pred this
      simp [notSlash] at this
    | cons c t =>
      have hc := dropWhile_head_false hd
      have : c = '/' := by
        by_contra hne
        simp [notSlash, hne] at hc
      refine ⟨t, ?_⟩
      rw [this]
  obtain ⟨t, ht⟩ := hdrop
  have h1 : splitPath p = ((pstrip p).takeWhile notSlash, t) := by
    simp only [splitPath, hs, if_pos]
    simp [splitSlash, ht]
  rw [h1]
  simpa [ht] using hsplit.symm

/-- A bare path decomposes as `prefix ++ suffix` around its first digit. -/
theorem splitPath_bare_decomp {p : Str} (h : isBareB p = true) :
    pstrip p = (splitPath p).1 ++ (splitPath p).2 := by
  have hs : hasSlash (pstrip p) = false := by
    simpa [isBareB] using h
  simp only [splitPath, hs, Bool.false_eq_true, if_false, splitBare]
  exact (List.takeWhile_append_dropWhile notDigit (pstrip p)).symm

/-- C9's shrinking fact: when the split prefix is non-empty, the suffix
candidate is strictly shorter than the path it was split from. -/
theorem splitPath_suffix_shorter {p : Str} (h : (splitPath p).1 ≠ []) :
    (splitPath p).2.length < p.length := by
  rcases hb : isBareB p with hfalse | htrue
  · have hd := splitPath_slash_decomp hb
    have : (pstrip p).length = (splitPath p).1.length + ((splitPath p).2.length + 1) := by
      rw [hd]; simp
    have hle := pstrip_length_le p
    omega
  · have hd := splitPath_bare_decomp hb
    have : (pstrip p).length = (splitPath p).1.length + (splitPath p).2.length := by
      rw [hd]; simp
    have hle := pstrip_length_le p
    have hpos : 0 < (splitPath p).1.length := List.length_pos.2 h
    omega

end LibNi

namespace LibNi

/-! ## Lemmas about the `patterns` dict -/

theorem mem_addIfNew {vs : List Str} {v w : Str} :
    w ∈ addIfNew vs v ↔ w ∈ vs ∨ w = v := by
  by_cases h : v ∈ vs
  · simp only [addIfNew, if_pos h]
    constructor
    · exact fun hw => Or.inl hw
    · rintro (hw | rfl)
      · exact hw
      · exact h
  · simp [addIfNew, h]

theorem addIfNew_nodup {vs : List Str} {v : Str} (h : vs.Nodup) :
    (addIfNew vs v).Nodup := by
  by_cases hv : v ∈ vs
  · simpa [addIfNew, hv] using h
  · rw [addIfNew, if_neg hv]
    exact h.append (List.nodup_singleton _) (List.disjoint_singleton.2 hv)

theorem addIfNew_ne_nil {vs : List Str} {v : Str} : addIfNew vs v ≠ [] := by
  by_cases hv : v ∈ vs
  · intro hnil
    have heq : addIfNew vs v = vs := by simp [addIfNew, hv]
    rw [heq] at hnil
    rw [hnil] at hv
    cases hv
  · simp [addIfNew, hv]

theorem getGroup_insertPat_self (st : GroupState) (k v : Str) :
    getGroup (insertPat st k v) k = addIfNew (getGroup st k) v := by
  induction st with
  | nil => simp [insertPat, getGroup, addIfNew]
  | cons kv rest ih =>
    obtain ⟨k', vs⟩ := kv
    by_cases h : k' = k
    · subst h
      simp [insertPat, getGroup]
    · simp [insertPat, getGroup, h, ih]

theorem getGroup_insertPat_ne {st : GroupState} {k v w : Str} (h : w ≠ k) :
    getGroup (insertPat st k v) w = getGroup st w := by
  induction st with
  | nil => simp [insertPat, getGroup, Ne.symm h]
  | cons kv rest ih =>
    obtain ⟨k', vs⟩ := kv
    by_cases hk : k' = k
    · subst hk
      simp [insertPat, getGroup, (Ne.symm h)]
    · simp only [insertPat, if_neg hk]
      by_cases hw : k' = w
      · subst hw
        simp [getGroup]
      · simp [getGroup, hw, ih]

theorem keys_insertPat (st : GroupState) (k v : Str) :
    (insertPat st k v).map Prod.fst =
      if k ∈ st.map Prod.fst then st.map Prod.fst else st.map Prod.fst ++ [k] := by
  induction st with
  | nil => simp [insertPat]
  | cons kv rest ih =>
    obtain ⟨k', vs⟩ := kv
    by_cases h : k' = k
    · subst h
      simp [insertPat]
    · simp only [insertPat, if_neg h, List.map_cons, ih]
      by_cases hm : k ∈ rest.map Prod.fst <;>
        simp [hm, Ne.symm h, List.mem_cons]

theorem mem_keys_insertPat {st : GroupState} {k v w : Str} :
    w ∈ (insertPat st k v).map Prod.fst ↔ w ∈ st.map Prod.fst ∨ w = k := by
  rw [keys_insertPat]
  by_cases hm : k ∈ st.map Prod.fst
  · simp only [if_pos hm]
    constructor
    · exact fun h => Or.inl h
    · rintro (h | rfl)
      · exact h
      · exact hm
  · simp [hm]

theorem getGroup_eq_nil_of_not_mem {st : GroupState} {k : Str}
    (h : k ∉ st.map Prod.fst) : getGroup st k = [] := by
  induction st with
  | nil => rfl
  | cons kv rest ih =>
    obtain ⟨k', vs⟩ := kv
    simp only [List.map_cons, List.mem_cons] at h
    push_neg at h
    simp [getGroup, Ne.symm h.1, ih h.2]

theorem getGroup_mem_or_nil (st : GroupState) (k : Str) :
    getGroup st k = [] ∨ (k, getGroup st k) ∈ st := by
  induction st with
  | nil => exact Or.inl rfl
  | cons kv rest ih =>
    obtain ⟨k', vs⟩ := kv
    by_cases h : k' = k
    · subst h
      simp [getGroup]
    · rcases ih with h0 | hmem
      · exact Or.inl (by simp [getGroup, h, h0])
      · exact Or.inr (by simp only [getGroup, if_neg h]; exact List.mem_cons_of_mem _ hmem)

theorem StInv.tail {kv : Str × List Str} {rest : GroupState}
    (h : StInv (kv :: rest)) : StInv rest := by
  refine ⟨?_, fun kv2 h2 => h.2 kv2 (List.mem_cons_of_mem _ h2)⟩
  have := h.1
  rw [List.map_cons, List.nodup_cons] at this
  exact this.2

theorem insertPat_vals {st : GroupState} {k v : Str}
    (h : ∀ kv ∈ st, kv.2 ≠ [] ∧ kv.2.Nodup) :
    ∀ kv ∈ insertPat st k v, kv.2 ≠ [] ∧ kv.2.Nodup := by
  induction st with
  | nil =>
    intro kv hkv
    simp only [insertPat, List.mem_singleton] at hkv
    subst hkv
    simp
  | cons kv' rest ih =>
    obtain ⟨k', vs⟩ := kv'
    intro kv hkv
    by_cases hk : k' = k
    · subst hk
      rw [insertPat, if_pos rfl] at hkv
      rcases List.mem_cons.1 hkv with heq | hmem
      · rw [heq]
        have h0 := h (k', vs) (List.mem_cons_self _ _)
        exact ⟨addIfNew_ne_nil, addIfNew_nodup h0.2⟩
      · exact h kv (List.mem_cons_of_mem _ hmem)
    · rw [insertPat, if_neg hk] at hkv
      rcases List.mem_cons.1 hkv with heq | hmem
      · rw [heq]
        exact h (k', vs) (List.mem_cons_self _ _)
      · exact ih (fun kv2 h2 => h kv2 (List.mem_cons_of_mem _ h2)) kv hmem

theorem StInv.insertPat {st : GroupState} (h : StInv st) (k v : Str) :
    StInv (LibNi.insertPat st k v) := by
  refine ⟨?_, insertPat_vals h.2⟩
  rw [keys_insertPat]
  by_cases hm : k ∈ st.map Prod.fst
  · simpa [hm] using h.1
  · rw [if_neg hm]
    exact h.1.append (List.nodup_singleton _) (List.disjoint_singleton.2 hm)

theorem StInv.nil : StInv [] := ⟨List.nodup_nil, fun kv hkv => by cases hkv⟩

theorem StInv.getGroup_nodup {st : GroupState} (h : StInv st) (k : Str) :
    (getGroup st k).Nodup := by
  rcases getGroup_mem_or_nil st k with h0 | hmem
  · rw [h0]; exact List.nodup_nil
  · exact (h.2 _ hmem).2

theorem getGroup_ne_nil_of_mem_keys {st : GroupState} (h : StInv st) {k : Str}
    (hk : k ∈ st.map Prod.fst) : getGroup st k ≠ [] := by
  induction st with
  | nil => cases hk
  | cons kv rest ih =>
    obtain ⟨k', vs⟩ := kv
    by_cases hkk : k' = k
    · subst hkk
      simpa [getGroup] using (h.2 (k', vs) (List.mem_cons_self _ _)).1
    · rw [List.map_cons] at hk
      rcases List.mem_cons.1 hk with rfl | hmem
      · exact absurd rfl hkk
      · simpa [getGroup, hkk] using ih h.tail hmem

theorem mem_keys_iff_getGroup_ne_nil {st : GroupState} (h : StInv st) {k : Str} :
    k ∈ st.map Prod.fst ↔ getGroup st k ≠ [] := by
  constructor
  · exact getGroup_ne_nil_of_mem_keys h
  · intro hne
    by_contra hk
    exact hne (getGroup_eq_nil_of_not_mem hk)

end LibNi

namespace LibNi

/-! ## Lemmas about the grouping loop -/

theorem buildSt_nil (st : GroupState) : buildSt [] st = st := rfl

theorem buildSt_cons (p : Str) (rest : List Str) (st : GroupState) :
    buildSt (p :: rest) st = buildSt rest (insertPat st (splitPath p).1 (splitPath p).2) := rfl

theorem buildLoop_ok_views {paths : List Str} {st : GroupState} {flag : Bool}
    {st' : GroupState} {flag' : Bool} (h : buildLoop paths st flag = .ok (st', flag')) :
    st' = buildSt paths st ∧ flag' = (flag || paths.any isBareB) := by
  induction paths generalizing st flag with
  | nil =>
    simp only [buildLoop, Except.ok.injEq, Prod.mk.injEq] at h
    simp [buildSt, ← h.1, ← h.2]
  | cons p rest ih =>
    by_cases hb : isBareB p
    · rw [buildLoop, if_pos hb] at h
      by_cases hg : st ≠ [] ∧ flag = false
      · rw [if_pos hg] at h
        cases h
      · rw [if_neg hg] at h
        obtain ⟨h1, h2⟩ := ih h
        refine ⟨h1, ?_⟩
        rw [h2]
        simp [List.any_cons, hb]
    · rw [buildLoop, if_neg hb] at h
      obtain ⟨h1, h2⟩ := ih h
      refine ⟨h1, ?_⟩
      rw [h2]
      have hb' : isBareB p = false := Bool.not_eq_true _ ▸ hb
      simp [List.any_cons, hb']

theorem buildLoop_ok_of_all_slash {paths : List Str}
    (h : ∀ p ∈ paths, isBareB p = false) :
    ∀ st flag, ∃ out, buildLoop paths st flag = .ok out := by
  induction paths with
  | nil => exact fun st flag => ⟨(st, flag), rfl⟩
  | cons p rest ih =>
    intro st flag
    have hp : isBareB p = false := h p (List.mem_cons_self _ _)
    rw [buildLoop, hp]
    simp only [Bool.false_eq_true, if_false]
    exact ih (fun q hq => h q (List.mem_cons_of_mem _ hq)) _ _

theorem buildLoop_ok_of_all_bare {paths : List Str}
    (h : ∀ p ∈ paths, isBareB p = true) :
    ∀ st flag, st = [] ∨ flag = true → ∃ out, buildLoop paths st flag = .ok out := by
  induction paths with
  | nil => exact fun st flag _ => ⟨(st, flag), rfl⟩
  | cons p rest ih =>
    intro st flag hok
    have hp : isBareB p = true := h p (List.mem_cons_self _ _)
    rw [buildLoop, hp, if_pos rfl]
    have hg : ¬(st ≠ [] ∧ flag = false) := by
      rcases hok with rfl | hflag
      · exact fun hc => hc.1 rfl
      · exact fun hc => by rw [hflag] at hc; cases hc.2
    rw [if_neg hg]
    exact ih (fun q hq => h q (List.mem_cons_of_mem _ hq)) _ _ (Or.inr rfl)

theorem shapeUniform_cases {paths : List Str} (h : shapeUniform paths) :
    (∀ p ∈ paths, isBareB p = true) ∨ (∀ p ∈ paths, isBareB p = false) := by
  rw [shapeUniform, shapeUniformB, Bool.or_eq_true] at h
  rcases h with h | h
  · exact Or.inl (by simpa [List.all_eq_true] using h)
  · refine Or.inr fun p hp => ?_
    rw [List.all_eq_true] at h
    simpa using h p hp

theorem buildLoop_uniform_ok {paths : List Str} (h : shapeUniform paths) :
    ∃ out, buildLoop paths [] false = .ok out := by
  rcases shapeUniform_cases h with hb | hs
  · exact buildLoop_ok_of_all_bare hb [] false (Or.inl rfl)
  · exact buildLoop_ok_of_all_slash hs [] false

theorem mem_getGroup_buildSt {paths : List Str} :
    ∀ {st : GroupState} {k v : Str},
      v ∈ getGroup (buildSt paths st) k ↔
        v ∈ getGroup st k ∨ ∃ p ∈ paths, splitPath p = (k, v) := by
  induction paths with
  | nil =>
    intro st k v
    simp [buildSt]
  | cons p rest ih =>
    intro st k v
    rw [buildSt_cons, ih]
    by_cases hk : k = (splitPath p).1
    · subst hk
      rw [getGroup_insertPat_self, mem_addIfNew]
      constructor
      · rintro ((hv | rfl) | ⟨q, hq, hsp⟩)
        · exact Or.inl hv
        · exact Or.inr ⟨p, List.mem_cons_self _ _, rfl⟩
        · exact Or.inr ⟨q, List.mem_cons_of_mem _ hq, hsp⟩
      · rintro (hv | ⟨q, hq, hsp⟩)
        · exact Or.inl (Or.inl hv)
        · rcases List.mem_cons.1 hq with rfl | hq'
          · rw [hsp]
            exact Or.inl (Or.inr rfl)
          · exact Or.inr ⟨q, hq', hsp⟩
    · rw [getGroup_insertPat_ne hk]
      constructor
      · rintro (hv | ⟨q, hq, hsp⟩)
        · exact Or.inl hv
        · exact Or.inr ⟨q, List.mem_cons_of_mem _ hq, hsp⟩
      · rintro (hv | ⟨q, hq, hsp⟩)
        · exact Or.inl hv
        · rcases List.mem_cons.1 hq with rfl | hq'
          · exact absurd (congrArg Prod.fst hsp).symm (by simpa using hk)
          · exact Or.inr ⟨q, hq', hsp⟩

theorem mem_keys_buildSt {paths : List Str} :
    ∀ {st : GroupState} {k : Str},
      k ∈ (buildSt paths st).map Prod.fst ↔
        k ∈ st.map Prod.fst ∨ ∃ p ∈ paths, (splitPath p).1 = k := by
  induction paths with
  | nil =>
    intro st k
    simp [buildSt]
  | cons p rest ih =>
    intro st k
    rw [buildSt_cons, ih, mem_keys_insertPat]
    constructor
    · rintro ((hv | rfl) | ⟨q, hq, hsp⟩)
      · exact Or.inl hv
      · exact Or.inr ⟨p, List.mem_cons_self _ _, rfl⟩
      · exact Or.inr ⟨q, List.mem_cons_of_mem _ hq, hsp⟩
    · rintro (hv | ⟨q, hq, hsp⟩)
      · exact Or.inl (Or.inl hv)
      · rcases List.mem_cons.1 hq with rfl | hq'
        · exact Or.inl (Or.inr hsp.symm)
        · exact Or.inr ⟨q, hq', hsp⟩

theorem StInv.buildSt {paths : List Str} :
    ∀ {st : GroupState}, StInv st → StInv (LibNi.buildSt paths st) := by
  induction paths with
  | nil => exact fun h => h
  | cons p rest ih =>
    intro st h
    rw [buildSt_cons]
    exact ih (h.insertPat _ _)

end LibNi

namespace LibNi

/-! ## Canonical sorted views -/

theorem mem_sortedSuffixes {st : GroupState} {k v : Str} :
    v ∈ sortedSuffixes st k ↔ v ∈ getGroup st k :=
  (List.perm_insertionSort _ _).mem_iff

theorem mem_sortedKeys {st : GroupState} {k : Str} :
    k ∈ sortedKeys st ↔ k ∈ st.map Prod.fst :=
  (List.perm_insertionSort _ _).mem_iff

theorem sortedSuffixes_length {st : GroupState} {k : Str} :
    (sortedSuffixes st k).length = (getGroup st k).length :=
  (List.perm_insertionSort _ _).length_eq

theorem insertionSort_eq_of_mem_iff {α : Type} [LinearOrder α] {l₁ l₂ : List α}
    (h₁ : l₁.Nodup) (h₂ : l₂.Nodup) (h : ∀ a, a ∈ l₁ ↔ a ∈ l₂) :
    List.insertionSort (· ≤ ·) l₁ = List.insertionSort (· ≤ ·) l₂ :=
  List.eq_of_perm_of_sorted
    (((List.perm_insertionSort _ l₁).trans
        ((List.perm_ext_iff_of_nodup h₁ h₂).2 h)).trans
      (List.perm_insertionSort _ l₂).symm)
    (List.sorted_insertionSort _ l₁) (List.sorted_insertionSort _ l₂)

theorem sortedKeys_sorted (st : GroupState) :
    (sortedKeys st).Sorted (· ≤ ·) :=
  List.sorted_insertionSort _ _

theorem sortedKeys_nodup {st : GroupState} (h : StInv st) :
    (sortedKeys st).Nodup :=
  ((List.perm_insertionSort _ _).nodup_iff).2 h.1

theorem sortedKeys_sorted_lt {st : GroupState} (h : StInv st) :
    (sortedKeys st).Sorted (· < ·) :=
  (sortedKeys_sorted st).lt_of_le (sortedKeys_nodup h)

end LibNi

namespace LibNi

/-! ## Lemmas about the emission loop -/

theorem emitLoop_ext {rec₁ rec₂ : List Str → Except PyErr (Option Str)} {main : Bool}
    {paths₁ paths₂ : List Str} {flag : Bool} {st₁ st₂ : GroupState} :
    ∀ {keys : List Str} {r : List Str},
      (main = true → paths₁ = paths₂) →
      (∀ k ∈ keys, sortedSuffixes st₁ k = sortedSuffixes st₂ k) →
      (∀ k ∈ keys, k ≠ [] → 2 ≤ (sortedSuffixes st₁ k).length →
        rec₁ (sortedSuffixes st₁ k) = rec₂ (sortedSuffixes st₁ k)) →
      emitLoop rec₁ main paths₁ flag st₁ keys r = emitLoop rec₂ main paths₂ flag st₂ keys r := by
  intro keys
  induction keys with
  | nil => intro r _ _ _; rfl
  | cons k ks ih =>
    intro r hpaths hsuf hrec
    have hsk : sortedSuffixes st₂ k = sortedSuffixes st₁ k :=
      (hsuf k (List.mem_cons_self _ _)).symm
    have ihs := fun r =>
      ih (r := r) hpaths (fun q hq => hsuf q (List.mem_cons_of_mem _ hq))
        (fun q hq => hrec q (List.mem_cons_of_mem _ hq))
    cases hs : sortedSuffixes st₁ k with
    | nil =>
      rw [emitLoop, emitLoop, hs, hsk, hs]
      exact ihs _
    | cons v₀ tl =>
      cases tl with
      | nil =>
        rw [emitLoop, emitLoop, hs, hsk, hs]
        exact ihs _
      | cons v₁ vs =>
        rw [emitLoop, emitLoop, hs, hsk, hs]
        dsimp only
        by_cases hk : k = []
        · rw [if_neg (not_not_intro hk), if_neg (not_not_intro hk)]
          cases numClause (v₀ :: v₁ :: vs) with
          | error e => rfl
          | ok o =>
            cases o with
            | none => rfl
            | some c => exact ihs _
        · rw [if_pos hk, if_pos hk]
          have hlen : 2 ≤ (sortedSuffixes st₁ k).length := by
            rw [hs]
            simp
          have := hrec k (List.mem_cons_self _ _) hk hlen
          rw [hs] at this
          rw [← this]
          cases rec₁ (v₀ :: v₁ :: vs) with
          | error e => rfl
          | ok o =>
            cases o with
            | none =>
              cases main with
              | false => rfl
              | true => rw [hpaths rfl]
            | some sub => exact ihs _

theorem emitLoop_main_cases {rec : List Str → Except PyErr (Option Str)}
    {paths : List Str} {flag : Bool} {st : GroupState} :
    ∀ {keys : List Str} {r : List Str},
      emitLoop rec true paths flag st keys r = emitLoop rec false paths flag st keys r ∨
      emitLoop rec true paths flag st keys r = .ok (some (joinPaths paths)) := by
  intro keys
  induction keys with
  | nil => intro r; exact Or.inl rfl
  | cons k ks ih =>
    intro r
    cases hs : sortedSuffixes st k with
    | nil =>
      rw [emitLoop, emitLoop, hs]
      exact ih
    | cons v₀ tl =>
      cases tl with
      | nil =>
        rw [emitLoop, emitLoop, hs]
        exact ih
      | cons v₁ vs =>
        rw [emitLoop, emitLoop, hs]
        dsimp only
        by_cases hk : k = []
        · rw [if_neg (not_not_intro hk), if_neg (not_not_intro hk)]
          cases numClause (v₀ :: v₁ :: vs) with
          | error e => exact Or.inl rfl
          | ok o =>
            cases o with
            | none => exact Or.inl rfl
            | some c => exact ih
        · rw [if_pos hk, if_pos hk]
          cases rec (v₀ :: v₁ :: vs) with
          | error e => exact Or.inl rfl
          | ok o =>
            cases o with
            | none => exact Or.inr rfl
            | some sub => exact ih

theorem emitLoop_false_some {rec : List Str → Except PyErr (Option Str)}
    {paths₁ paths₂ : List Str} {flag : Bool} {st : GroupState} :
    ∀ {keys : List Str} {r : List Str} {s : Str},
      emitLoop rec false paths₁ flag st keys r = .ok (some s) →
      emitLoop rec true paths₂ flag st keys r = .ok (some s) := by
  intro keys
  induction keys with
  | nil =>
    intro r s h
    simpa [emitLoop] using h
  | cons k ks ih =>
    intro r s h
    cases hs : sortedSuffixes st k with
    | nil =>
      rw [emitLoop, hs] at h
      rw [emitLoop, hs]
      exact ih h
    | cons v₀ tl =>
      cases tl with
      | nil =>
        rw [emitLoop, hs] at h
        rw [emitLoop, hs]
        exact ih h
      | cons v₁ vs =>
        rw [emitLoop, hs] at h
        rw [emitLoop, hs]
        dsimp only at h ⊢
        by_cases hk : k = []
        · rw [if_neg (not_not_intro hk)] at h ⊢
          revert h
          cases hnc : numClause (v₀ :: v₁ :: vs) with
          | error e => intro h; exact absurd h (by simp)
          | ok o =>
            cases o with
            | none => intro h; exact absurd h (by simp)
            | some c => intro h; exact ih h
        · rw [if_pos hk] at h ⊢
          revert h
          cases hrc : rec (v₀ :: v₁ :: vs) with
          | error e => intro h; exact absurd h (by simp)
          | ok o =>
            cases o with
            | none => intro h; exact absurd h (by simp)
            | some sub => intro h; exact ih h

theorem emitLoop_false_decomp {rec : List Str → Except PyErr (Option Str)}
    {paths : List Str} {flag : Bool} {st : GroupState} :
    ∀ {keys : List Str} {r : List Str} {s : Str},
      emitLoop rec false paths flag st keys r = .ok (some s) →
      ∃ cs, clausesOf rec flag st keys = some cs ∧ s = joinPaths (r ++ cs) := by
  intro keys
  induction keys with
  | nil =>
    intro r s h
    simp only [emitLoop, Except.ok.injEq, Option.some.injEq] at h
    exact ⟨[], rfl, by simp [← h]⟩
  | cons k ks ih =>
    intro r s h
    have step : ∀ c : Str, clauseOf rec flag st k = .ok (some c) →
        emitLoop rec false paths flag st ks (r ++ [c]) = .ok (some s) →
        ∃ cs, clausesOf rec flag st (k :: ks) = some cs ∧ s = joinPaths (r ++ cs) := by
      intro c hc htl
      obtain ⟨cs, hcs, hjoin⟩ := ih htl
      refine ⟨c :: cs, ?_, ?_⟩
      · rw [clausesOf, hc, hcs]
      · rw [hjoin]
        congr 1
        simp
    cases hs : sortedSuffixes st k with
    | nil =>
      rw [emitLoop, hs] at h
      exact step k (by rw [clauseOf, hs]) h
    | cons v₀ tl =>
      cases tl with
      | nil =>
        rw [emitLoop, hs] at h
        exact step _ (by rw [clauseOf, hs]) h
      | cons v₁ vs =>
        rw [emitLoop, hs] at h
        dsimp only at h
        by_cases hk : k = []
        · rw [if_neg (not_not_intro hk)] at h
          revert h
          cases hnc : numClause (v₀ :: v₁ :: vs) with
          | error e => intro h; exact absurd h (by simp)
          | ok o =>
            cases o with
            | none => intro h; exact absurd h (by simp)
            | some c =>
              intro h
              refine step c ?_ h
              rw [clauseOf, hs]
              dsimp only
              rw [if_neg (not_not_intro hk), hnc]
        · rw [if_pos hk] at h
          revert h
          cases hrc : rec (v₀ :: v₁ :: vs) with
          | error e => intro h; exact absurd h (by simp)
          | ok o =>
            cases o with
            | none => intro h; exact absurd h (by simp)
            | some sub =>
              intro h
              refine step _ ?_ h
              rw [clauseOf, hs]
              dsimp only
              rw [if_pos hk, hrc]

end LibNi

namespace LibNi

/-! ## Segment counts and flat suffixes -/

theorem splitPath_eq_slash {p : Str} (h : isBareB p = false) :
    splitPath p = splitSlash (pstrip p) := by
  have hs : hasSlash (pstrip p) = true := by simpa [isBareB] using h
  simp [splitPath, hs]

theorem splitPath_eq_bare {p : Str} (h : isBareB p = true) :
    splitPath p = splitBare (pstrip p) := by
  have hs : hasSlash (pstrip p) = false := by simpa [isBareB] using h
  simp [splitPath, hs]

theorem maxSegCount_cons (q : Str) (rest : List Str) :
    maxSegCount (q :: rest) = max (segCount q) (maxSegCount rest) := rfl

theorem mem_segCount_le {paths : List Str} {p : Str} (hp : p ∈ paths) :
    segCount p ≤ maxSegCount paths := by
  induction paths with
  | nil => cases hp
  | cons q rest ih =>
    rw [maxSegCount_cons]
    rcases List.mem_cons.1 hp with rfl | h
    · exact Nat.le_max_left _ _
    · exact le_trans (ih h) (Nat.le_max_right _ _)

theorem maxSegCount_le {paths : List Str} {B : Nat}
    (h : ∀ p ∈ paths, segCount p ≤ B) : maxSegCount paths ≤ B := by
  induction paths with
  | nil => exact Nat.zero_le B
  | cons q rest ih =>
    rw [maxSegCount_cons]
    exact max_le (h q (List.mem_cons_self _ _)) (ih fun p hp => h p (List.mem_cons_of_mem _ hp))

theorem count_takeWhile_notSlash (q : Str) : (q.takeWhile notSlash).count '/' = 0 := by
  rw [List.count_eq_zero]
  intro hmem
  have := mem_takeWhile_pred hmem
  simp [notSlash] at this

theorem splitPath_slash_segCount {p : Str} (h : isBareB p = false) :
    segCount (splitPath p).2 + 1 ≤ segCount p := by
  have hd := splitPath_slash_decomp h
  have hc : (pstrip p).count '/' =
      (splitPath p).1.count '/' + ((splitPath p).2.count '/' + 1) := by
    conv_lhs => rw [hd]
    rw [List.count_append, List.count_cons]
    simp
  have h1 : (splitPath p).1.count '/' = 0 := by
    rw [splitPath_eq_slash h]
    exact count_takeWhile_notSlash _
  have h2 : (pstrip (splitPath p).2).count '/' ≤ (splitPath p).2.count '/' :=
    pstrip_count_le _
  rw [segCount, segCount]
  omega

theorem segCount_of_no_slash {v : Str} (h : hasSlash v = false) : segCount v = 1 := by
  have hnm : '/' ∉ v := hasSlash_false_iff.1 h
  rw [segCount, pstrip_of_not_mem hnm, List.count_eq_zero.2 hnm]

theorem splitPath_bare_suffix_no_slash {p : Str} (h : isBareB p = true) :
    hasSlash (splitPath p).2 = false := by
  rw [splitPath_eq_bare h]
  have hq : '/' ∉ pstrip p := hasSlash_false_iff.1 (by simpa [isBareB] using h)
  rw [hasSlash_false_iff]
  intro hmem
  exact hq ((List.dropWhile_sublist _).subset hmem)

theorem splitPath_bare_suffix_flat {p : Str} (h : isBareB p = true) :
    flatElemB (splitPath p).2 = true := by
  have hns := splitPath_bare_suffix_no_slash h
  rw [flatElemB.eq_def, hns]
  simp only [Bool.not_false, Bool.true_and]
  cases hv : (splitPath p).2 with
  | nil => rfl
  | cons c t =>
    rw [splitPath_eq_bare h] at hv
    dsimp [splitBare] at hv
    have := dropWhile_head_false hv
    simpa [notDigit] using this

theorem flatElemB_props {v : Str} (h : flatElemB v = true) :
    isBareB v = true ∧ pstrip v = v ∧ (splitPath v).1 = [] := by
  rw [flatElemB.eq_def, Bool.and_eq_true] at h
  have hns : hasSlash v = false := by
    have := h.1
    simp only [Bool.not_eq_true'] at this
    exact this
  have hnm : '/' ∉ v := hasSlash_false_iff.1 hns
  have hps : pstrip v = v := pstrip_of_not_mem hnm
  have hbare : isBareB v = true := by
    rw [isBareB, hps, hns]
    rfl
  refine ⟨hbare, hps, ?_⟩
  rw [splitPath_eq_bare hbare, hps]
  dsimp [splitBare]
  cases v with
  | nil => rfl
  | cons c t =>
    have hdig : c.isDigit = true := h.2
    rw [List.takeWhile_cons_of_neg]
    simp [notDigit, hdig]

theorem isBareB_of_segCount_le_one {p : Str} (h : segCount p ≤ 1) : isBareB p = true := by
  rw [segCount] at h
  have : (pstrip p).count '/' = 0 := by omega
  rw [isBareB]
  have : '/' ∉ pstrip p := List.count_eq_zero.1 this
  simp [hasSlash_false_iff.2 this]

end LibNi

namespace LibNi

/-! ## Fuel stability: the recursion depth is bounded by `maxSegCount` -/

theorem targets_bound {paths : List Str} {st : GroupState} {flag : Bool}
    (hbl : buildLoop paths [] false = .ok (st, flag)) (hmax : 2 ≤ maxSegCount paths)
    {k v : Str} (hv : v ∈ getGroup st k) : segCount v + 1 ≤ maxSegCount paths := by
  obtain ⟨hst, -⟩ := buildLoop_ok_views hbl
  subst hst
  rcases mem_getGroup_buildSt.1 hv with h0 | ⟨p, hp, hsp⟩
  · simp [getGroup] at h0
  · have hpm := mem_segCount_le hp
    have hv2 : (splitPath p).2 = v := by rw [hsp]
    cases hb : isBareB p with
    | false =>
      have := splitPath_slash_segCount hb
      rw [hv2] at this
      omega
    | true =>
      have := segCount_of_no_slash (v := v) (hv2 ▸ splitPath_bare_suffix_no_slash hb)
      omega

theorem targets_flat {paths : List Str} {st : GroupState} {flag : Bool}
    (hbl : buildLoop paths [] false = .ok (st, flag)) (hmax : maxSegCount paths ≤ 1)
    {k v : Str} (hv : v ∈ getGroup st k) : flatElemB v = true := by
  obtain ⟨hst, -⟩ := buildLoop_ok_views hbl
  subst hst
  rcases mem_getGroup_buildSt.1 hv with h0 | ⟨p, hp, hsp⟩
  · simp [getGroup] at h0
  · have hb : isBareB p = true :=
      isBareB_of_segCount_le_one (le_trans (mem_segCount_le hp) hmax)
    have hv2 : (splitPath p).2 = v := by rw [hsp]
    exact hv2 ▸ splitPath_bare_suffix_flat hb

theorem mkpBody_rec_irrel_of_flat {paths : List Str}
    {rec₁ rec₂ : List Str → Except PyErr (Option Str)} {main : Bool}
    (h : ∀ p ∈ paths, flatElemB p = true) :
    mkpBody rec₁ main paths = mkpBody rec₂ main paths := by
  obtain ⟨⟨st, flag⟩, hbl⟩ :=
    buildLoop_ok_of_all_bare (fun p hp => (flatElemB_props (h p hp)).1) [] false (Or.inl rfl)
  rw [mkpBody, mkpBody, hbl]
  apply emitLoop_ext (fun _ => rfl) (fun _ _ => rfl)
  intro k hk hkne hlen
  exfalso
  obtain ⟨hst, -⟩ := buildLoop_ok_views hbl
  have hkeys : k ∈ (buildSt paths []).map Prod.fst := by
    rw [← hst]
    exact mem_sortedKeys.1 hk
  rcases mem_keys_buildSt.1 hkeys with h0 | ⟨p, hp, hsp⟩
  · simp at h0
  · exact hkne (by rw [← hsp, (flatElemB_props (h p hp)).2.2])

theorem makePatternF_succ_eq :
    ∀ (fuel : Nat) {main : Bool} {paths : List Str},
      (maxSegCount paths ≤ fuel ∨ ∀ p ∈ paths, flatElemB p = true) →
      makePatternF (fuel + 1) main paths = makePatternF fuel main paths := by
  intro fuel
  induction fuel with
  | zero =>
    intro main paths h
    have hflat : ∀ p ∈ paths, flatElemB p = true := by
      rcases h with hmax | hflat
      · intro p hp
        have h1 := mem_segCount_le hp
        have h2 : 1 ≤ segCount p := by rw [segCount]; omega
        omega
      · exact hflat
    exact mkpBody_rec_irrel_of_flat hflat
  | succ n ih =>
    intro main paths h
    rcases h with hmax | hflat
    · show mkpBody (makePatternF (n + 1) false) main paths =
        mkpBody (makePatternF n false) main paths
      cases hbl : buildLoop paths [] false with
      | error e => rw [mkpBody, mkpBody, hbl]
      | ok out =>
        obtain ⟨st, flag⟩ := out
        rw [mkpBody, mkpBody, hbl]
        apply emitLoop_ext (fun _ => rfl) (fun _ _ => rfl)
        intro k hk hkne hlen
        apply ih
        by_cases h2 : 2 ≤ maxSegCount paths
        · left
          apply maxSegCount_le
          intro v hv
          have := targets_bound hbl h2 (mem_sortedSuffixes.1 hv)
          omega
        · right
          intro v hv
          exact targets_flat hbl (by omega) (mem_sortedSuffixes.1 hv)
    · exact mkpBody_rec_irrel_of_flat hflat

theorem makePatternF_stable :
    ∀ (fuel : Nat) (main : Bool) (paths : List Str), maxSegCount paths ≤ fuel →
      makePatternF fuel main paths = makePattern main paths := by
  intro fuel
  induction fuel with
  | zero =>
    intro main paths h
    have : maxSegCount paths = 0 := Nat.le_zero.1 h
    rw [makePattern, this]
  | succ g ih =>
    intro main paths h
    by_cases hg : maxSegCount paths ≤ g
    · rw [makePatternF_succ_eq g (Or.inl hg)]
      exact ih main paths hg
    · have : maxSegCount paths = g + 1 := by omega
      rw [makePattern, this]

end LibNi

namespace LibNi

/-! ## The `_main` dichotomy and duplicate handling -/

theorem mkpBody_main_or_fallback {rec : List Str → Except PyErr (Option Str)}
    {paths : List Str} :
    mkpBody rec true paths = mkpBody rec false paths ∨
    mkpBody rec true paths = .ok (some (joinPaths paths)) := by
  rw [mkpBody, mkpBody]
  cases buildLoop paths [] false with
  | error e => exact Or.inl rfl
  | ok out =>
    obtain ⟨st, flag⟩ := out
    exact emitLoop_main_cases

theorem mkpBody_false_some {rec : List Str → Except PyErr (Option Str)}
    {paths : List Str} {s : Str} (h : mkpBody rec false paths = .ok (some s)) :
    mkpBody rec true paths = .ok (some s) := by
  rw [mkpBody] at h ⊢
  revert h
  cases buildLoop paths [] false with
  | error e => intro h; exact absurd h (by simp)
  | ok out =>
    obtain ⟨st, flag⟩ := out
    exact emitLoop_false_some

theorem makePatternF_main_or_fallback (fuel : Nat) (paths : List Str) :
    makePatternF fuel true paths = makePatternF fuel false paths ∨
    makePatternF fuel true paths = .ok (some (joinPaths paths)) := by
  cases fuel with
  | zero => exact mkpBody_main_or_fallback
  | succ n => exact mkpBody_main_or_fallback

theorem makePatternF_false_some {fuel : Nat} {paths : List Str} {s : Str}
    (h : makePatternF fuel false paths = .ok (some s)) :
    makePatternF fuel true paths = .ok (some s) := by
  cases fuel with
  | zero => exact mkpBody_false_some h
  | succ n => exact mkpBody_false_some h

theorem insertPat_no_op {st : GroupState} {k v : Str} (h : v ∈ getGroup st k) :
    insertPat st k v = st := by
  induction st with
  | nil => simp [getGroup] at h
  | cons kv rest ih =>
    obtain ⟨k', vs⟩ := kv
    by_cases hk : k' = k
    · subst hk
      rw [getGroup, if_pos rfl] at h
      rw [insertPat, if_pos rfl, addIfNew, if_pos h]
    · rw [getGroup, if_neg hk] at h
      rw [insertPat, if_neg hk, ih h]

theorem mem_getGroup_insertPat_mono {st : GroupState} {k v k' v' : Str}
    (h : v' ∈ getGroup st k') : v' ∈ getGroup (insertPat st k v) k' := by
  by_cases hk : k' = k
  · subst hk
    rw [getGroup_insertPat_self, mem_addIfNew]
    exact Or.inl h
  · rw [getGroup_insertPat_ne hk]
    exact h

theorem buildLoop_cons_bare {p : Str} {rest : List Str} {st : GroupState} {flag : Bool}
    (hb : isBareB p = true) (hg : ¬(st ≠ [] ∧ flag = false)) :
    buildLoop (p :: rest) st flag =
      buildLoop rest (insertPat st (splitPath p).1 (splitPath p).2) true := by
  rw [buildLoop, if_pos hb, if_neg hg]

theorem buildLoop_cons_bare_err {p : Str} {rest : List Str} {st : GroupState} {flag : Bool}
    (hb : isBareB p = true) (hg : st ≠ [] ∧ flag = false) :
    buildLoop (p :: rest) st flag = .error .assertionError := by
  rw [buildLoop, if_pos hb, if_pos hg]

theorem buildLoop_cons_slash {p : Str} {rest : List Str} {st : GroupState} {flag : Bool}
    (hb : isBareB p = false) :
    buildLoop (p :: rest) st flag =
      buildLoop rest (insertPat st (splitPath p).1 (splitPath p).2) flag := by
  rw [buildLoop, if_neg (by simp [hb])]

theorem buildLoop_skip {p : Str} {rest : List Str} {st : GroupState} {flag : Bool}
    (hmem : (splitPath p).2 ∈ getGroup st (splitPath p).1)
    (hflag : isBareB p = true → flag = true) :
    buildLoop (p :: rest) st flag = buildLoop rest st flag := by
  cases hb : isBareB p with
  | false => rw [buildLoop_cons_slash hb, insertPat_no_op hmem]
  | true =>
    have hf : flag = true := hflag hb
    rw [buildLoop_cons_bare hb (by rw [hf]; exact fun hc => by cases hc.2)]
    rw [insertPat_no_op hmem, hf]

theorem buildLoop_dedupAux :
    ∀ (paths seen : List Str) (st : GroupState) (flag : Bool),
      (∀ q ∈ seen, (splitPath q).2 ∈ getGroup st (splitPath q).1 ∧
        (isBareB q = true → flag = true)) →
      buildLoop paths st flag = buildLoop (dedupAux paths seen) st flag := by
  intro paths
  induction paths with
  | nil => intro seen st flag _; rfl
  | cons p rest ih =>
    intro seen st flag hseen
    rw [dedupAux]
    by_cases hp : p ∈ seen
    · rw [if_pos hp]
      have h0 := hseen p hp
      rw [buildLoop_skip h0.1 h0.2]
      exact ih seen st flag hseen
    · rw [if_neg hp]
      cases hb : isBareB p with
      | true =>
        by_cases hg : st ≠ [] ∧ flag = false
        · rw [buildLoop_cons_bare_err hb hg, buildLoop_cons_bare_err hb hg]
        · rw [buildLoop_cons_bare hb hg, buildLoop_cons_bare hb hg]
          apply ih
          intro q hq
          rcases List.mem_cons.1 hq with rfl | hq'
          · refine ⟨?_, fun _ => rfl⟩
            rw [getGroup_insertPat_self, mem_addIfNew]
            exact Or.inr rfl
          · exact ⟨mem_getGroup_insertPat_mono (hseen q hq').1, fun _ => rfl⟩
      | false =>
        rw [buildLoop_cons_slash hb, buildLoop_cons_slash hb]
        apply ih
        intro q hq
        rcases List.mem_cons.1 hq with rfl | hq'
        · refine ⟨?_, fun hc => by rw [hb] at hc; cases hc⟩
          rw [getGroup_insertPat_self, mem_addIfNew]
          exact Or.inr rfl
        · exact ⟨mem_getGroup_insertPat_mono (hseen q hq').1, (hseen q hq').2⟩

theorem buildLoop_dedupF (paths : List Str) (st : GroupState) (flag : Bool) :
    buildLoop paths st flag = buildLoop (dedupF paths) st flag :=
  buildLoop_dedupAux paths [] st flag (fun q hq => by cases hq)

theorem mkpBody_false_dedup {rec : List Str → Except PyErr (Option Str)}
    {paths : List Str} :
    mkpBody rec false paths = mkpBody rec false (dedupF paths) := by
  rw [mkpBody, mkpBody, ← buildLoop_dedupF]
  cases buildLoop paths [] false with
  | error e => rfl
  | ok out =>
    obtain ⟨st, flag⟩ := out
    exact emitLoop_ext (fun hc => by cases hc) (fun _ _ => rfl) (fun _ _ _ _ => rfl)

theorem makePatternF_false_dedup (fuel : Nat) (paths : List Str) :
    makePatternF fuel false paths = makePatternF fuel false (dedupF paths) := by
  cases fuel with
  | zero => exact mkpBody_false_dedup
  | succ n => exact mkpBody_false_dedup

end LibNi

namespace LibNi

/-! ## Permutation invariance of the compact computation -/

theorem any_isBareB_eq_of_mem_iff {paths₁ paths₂ : List Str}
    (h : ∀ p, p ∈ paths₁ ↔ p ∈ paths₂) :
    paths₁.any isBareB = paths₂.any isBareB := by
  cases h2 : paths₂.any isBareB with
  | true =>
    obtain ⟨p, hp, hbp⟩ := List.any_eq_true.1 h2
    exact List.any_eq_true.2 ⟨p, (h p).2 hp, hbp⟩
  | false =>
    rw [List.any_eq_false] at h2 ⊢
    exact fun p hp => h2 p ((h p).1 hp)

theorem shapeUniform_of_mem_iff {paths₁ paths₂ : List Str}
    (h : ∀ p, p ∈ paths₁ ↔ p ∈ paths₂) (hu : shapeUniform paths₁) :
    shapeUniform paths₂ := by
  rw [shapeUniform, shapeUniformB, Bool.or_eq_true] at hu ⊢
  rcases hu with hu | hu
  · exact Or.inl (List.all_eq_true.2 fun p hp => List.all_eq_true.1 hu p ((h p).2 hp))
  · exact Or.inr (List.all_eq_true.2 fun p hp => List.all_eq_true.1 hu p ((h p).2 hp))

theorem buildSt_sortedKeys_eq {paths₁ paths₂ : List Str}
    (h : ∀ p, p ∈ paths₁ ↔ p ∈ paths₂) :
    sortedKeys (buildSt paths₁ []) = sortedKeys (buildSt paths₂ []) := by
  apply insertionSort_eq_of_mem_iff (StInv.buildSt StInv.nil).1 (StInv.buildSt StInv.nil).1
  intro k
  rw [mem_keys_buildSt, mem_keys_buildSt]
  constructor
  · rintro (h0 | ⟨p, hp, hsp⟩)
    · cases h0
    · exact Or.inr ⟨p, (h p).1 hp, hsp⟩
  · rintro (h0 | ⟨p, hp, hsp⟩)
    · cases h0
    · exact Or.inr ⟨p, (h p).2 hp, hsp⟩

theorem buildSt_sortedSuffixes_eq {paths₁ paths₂ : List Str}
    (h : ∀ p, p ∈ paths₁ ↔ p ∈ paths₂) (k : Str) :
    sortedSuffixes (buildSt paths₁ []) k = sortedSuffixes (buildSt paths₂ []) k := by
  apply insertionSort_eq_of_mem_iff ((StInv.buildSt StInv.nil).getGroup_nodup k)
    ((StInv.buildSt StInv.nil).getGroup_nodup k)
  intro v
  rw [mem_getGroup_buildSt, mem_getGroup_buildSt]
  constructor
  · rintro (h0 | ⟨p, hp, hsp⟩)
    · simp [getGroup] at h0
    · exact Or.inr ⟨p, (h p).1 hp, hsp⟩
  · rintro (h0 | ⟨p, hp, hsp⟩)
    · simp [getGroup] at h0
    · exact Or.inr ⟨p, (h p).2 hp, hsp⟩

theorem mkpBody_false_of_mem_iff {rec : List Str → Except PyErr (Option Str)}
    {paths₁ paths₂ : List Str} (h : ∀ p, p ∈ paths₁ ↔ p ∈ paths₂)
    (huni : shapeUniform paths₁) :
    mkpBody rec false paths₁ = mkpBody rec false paths₂ := by
  obtain ⟨⟨st₁, flag₁⟩, hbl₁⟩ := buildLoop_uniform_ok huni
  obtain ⟨⟨st₂, flag₂⟩, hbl₂⟩ := buildLoop_uniform_ok (shapeUniform_of_mem_iff h huni)
  obtain ⟨hst₁, hflag₁⟩ := buildLoop_ok_views hbl₁
  obtain ⟨hst₂, hflag₂⟩ := buildLoop_ok_views hbl₂
  rw [mkpBody, mkpBody, hbl₁, hbl₂]
  subst hst₁
  subst hst₂
  have hflag : flag₁ = flag₂ := by
    rw [hflag₁, hflag₂]
    simpa using any_isBareB_eq_of_mem_iff h
  dsimp only
  rw [hflag, buildSt_sortedKeys_eq h]
  exact emitLoop_ext (fun hc => by cases hc)
    (fun k _ => buildSt_sortedSuffixes_eq h k)
    (fun k _ _ _ => by rw [buildSt_sortedSuffixes_eq h k])

theorem makePatternF_false_of_mem_iff (fuel : Nat) {paths₁ paths₂ : List Str}
    (h : ∀ p, p ∈ paths₁ ↔ p ∈ paths₂) (huni : shapeUniform paths₁) :
    makePatternF fuel false paths₁ = makePatternF fuel false paths₂ := by
  cases fuel with
  | zero => exact mkpBody_false_of_mem_iff h huni
  | succ n => exact mkpBody_false_of_mem_iff h huni

theorem makePattern_false_of_mem_iff {paths₁ paths₂ : List Str}
    (h : ∀ p, p ∈ paths₁ ↔ p ∈ paths₂) (huni : shapeUniform paths₁) :
    makePattern false paths₁ = makePattern false paths₂ := by
  have h₁ : maxSegCount paths₁ ≤ max (maxSegCount paths₁) (maxSegCount paths₂) :=
    Nat.le_max_left _ _
  have h₂ : maxSegCount paths₂ ≤ max (maxSegCount paths₁) (maxSegCount paths₂) :=
    Nat.le_max_right _ _
  rw [← makePatternF_stable _ false paths₁ h₁, ← makePatternF_stable _ false paths₂ h₂]
  exact makePatternF_false_of_mem_iff _ h huni

theorem makePattern_false_dedup (paths : List Str) :
    makePattern false paths = makePattern false (dedupF paths) := by
  have h₁ : maxSegCount paths ≤ max (maxSegCount paths) (maxSegCount (dedupF paths)) :=
    Nat.le_max_left _ _
  have h₂ : maxSegCount (dedupF paths) ≤
      max (maxSegCount paths) (maxSegCount (dedupF paths)) :=
    Nat.le_max_right _ _
  rw [← makePatternF_stable _ false paths h₁, ← makePatternF_stable _ false (dedupF paths) h₂]
  exact makePatternF_false_dedup _ paths

end LibNi

namespace LibNi

/-! ## The numeric range branch -/

theorem intRangeGo_length : ∀ (n : Nat) (x : Int), (intRangeGo n x).length = n
  | 0, _ => rfl
  | n + 1, x => by rw [intRangeGo, List.length_cons, intRangeGo_length n]

theorem intRangeGo_headD : ∀ (n : Nat) (x d : Int), 0 < n → (intRangeGo n x).headD d = x
  | _ + 1, _, _, _ => rfl

theorem intRangeGo_getLastD :
    ∀ (n : Nat) (x d : Int), 0 < n → (intRangeGo n x).getLastD d = x + n - 1
  | 1, x, d, _ => by simp [intRangeGo]
  | n + 2, x, d, _ => by
    rw [intRangeGo, List.getLastD_cons, intRangeGo_getLastD (n + 1) (x + 1) x (by omega)]
    push_cast
    ring

theorem intRangeList_length (a b : Int) :
    (intRangeList a b).length = (b + 1 - a).toNat := by
  rw [intRangeList, intRangeGo_length]

theorem allInts_length : ∀ {lst : List Str} {ints : List Int},
    allInts lst = some ints → ints.length = lst.length := by
  intro lst
  induction lst with
  | nil =>
    intro ints h
    simp only [allInts, Option.some.injEq] at h
    rw [← h]
    rfl
  | cons s rest ih =>
    intro ints h
    rw [allInts] at h
    revert h
    cases hp : pyInt s with
    | none => intro h; exact absurd h (by simp)
    | some i =>
      cases har : allInts rest with
      | none => intro h; exact absurd h (by simp)
      | some is =>
        intro h
        simp only [Option.some.injEq] at h
        rw [← h, List.length_cons, ih har, List.length_cons]

theorem numClause_valueError {lst : List Str} (h : allInts lst = none) :
    numClause lst = .error .valueError := by
  rw [numClause, h]

theorem insertionSort_length {α : Type} [LinearOrder α] (l : List α) :
    (List.insertionSort (· ≤ ·) l).length = l.length :=
  (List.perm_insertionSort _ _).length_eq

theorem numClause_range_emit {lst : List Str} {ints : List Int} {a b : Int}
    (hlen : 2 ≤ lst.length) (hall : allInts lst = some ints)
    (hsort : List.insertionSort (· ≤ ·) ints = intRangeList a b) (hab : a < b) :
    numClause lst = .ok (some (intStr a ++ [':'] ++ intStr b)) := by
  rw [numClause, hall]
  dsimp only
  have hlen2 : (List.insertionSort (· ≤ ·) ints).length = lst.length := by
    rw [insertionSort_length, allInts_length hall]
  have hn : (b + 1 - a).toNat = lst.length := by
    rw [← intRangeList_length a b, ← hsort, hlen2]
  have hpos : 0 < (b + 1 - a).toNat := by omega
  have hhead : (List.insertionSort (· ≤ ·) ints).headD 0 = a := by
    rw [hsort, intRangeList, intRangeGo_headD _ _ _ hpos]
  have hlast : (List.insertionSort (· ≤ ·) ints).getLastD 0 = b := by
    rw [hsort, intRangeList, intRangeGo_getLastD _ _ _ hpos]
    have := Int.toNat_of_nonneg (by omega : (0 : Int) ≤ b + 1 - a)
    omega
  rw [if_neg (by omega), hhead, hlast, if_pos hsort]

theorem numClause_ok_some {lst : List Str} {s : Str}
    (hlen : 2 ≤ lst.length) (h : numClause lst = .ok (some s)) :
    ∃ ints a b, allInts lst = some ints ∧
      List.insertionSort (· ≤ ·) ints = intRangeList a b ∧ a < b ∧
      s = intStr a ++ [':'] ++ intStr b := by
  rw [numClause] at h
  revert h
  cases hall : allInts lst with
  | none => intro h; exact absurd h (by simp)
  | some ints =>
    dsimp only
    intro h
    have hlen2 : (List.insertionSort (· ≤ ·) ints).length = lst.length := by
      rw [insertionSort_length, allInts_length hall]
    rw [if_neg (by omega)] at h
    by_cases hc : List.insertionSort (· ≤ ·) ints =
        intRangeList ((List.insertionSort (· ≤ ·) ints).headD 0)
          ((List.insertionSort (· ≤ ·) ints).getLastD 0)
    · rw [if_pos hc] at h
      refine ⟨ints, _, _, rfl, hc, ?_, by simpa using h.symm⟩
      have h3 : (intRangeList ((List.insertionSort (· ≤ ·) ints).headD 0)
          ((List.insertionSort (· ≤ ·) ints).getLastD 0)).length = lst.length := by
        rw [← hc, hlen2]
      rw [intRangeList_length] at h3
      omega
    · rw [if_neg hc] at h
      exact absurd h (by simp)

end LibNi

namespace LibNi

/-! ## Propagation of the empty-prefix group's failure -/

theorem sortedKeys_head_empty {st : GroupState} (hinv : StInv st)
    (hne : getGroup st [] ≠ []) : ∃ ks, sortedKeys st = [] :: ks := by
  have hmem : ([] : Str) ∈ sortedKeys st :=
    mem_sortedKeys.2 ((mem_keys_iff_getGroup_ne_nil hinv).2 hne)
  have hsorted := sortedKeys_sorted st
  cases hsk : sortedKeys st with
  | nil => rw [hsk] at hmem; cases hmem
  | cons k ks =>
    refine ⟨ks, ?_⟩
    rw [hsk] at hmem hsorted
    rcases List.mem_cons.1 hmem with heq | hmem'
    · rw [← heq]
    · have hle : k ≤ ([] : Str) :=
        (List.sorted_cons.1 hsorted).1 _ hmem'
      have : k = ([] : Str) := le_antisymm hle List.nil_le
      rw [this]

theorem emitLoop_empty_key_error {rec : List Str → Except PyErr (Option Str)}
    {main : Bool} {paths : List Str} {flag : Bool} {st : GroupState}
    {ks : List Str} {r : List Str} {e : PyErr}
    (hs2 : 2 ≤ (sortedSuffixes st []).length)
    (hnum : numClause (sortedSuffixes st []) = .error e) :
    emitLoop rec main paths flag st ([] :: ks) r = .error e := by
  cases hs : sortedSuffixes st [] with
  | nil => rw [hs] at hs2; simp at hs2
  | cons v₀ tl =>
    cases tl with
    | nil => rw [hs] at hs2; simp at hs2
    | cons v₁ vs =>
      rw [emitLoop, hs]
      dsimp only
      rw [if_neg (by simp), ← hs, hnum]

theorem makePatternF_valueError {fuel : Nat} {main : Bool} {paths : List Str}
    {st : GroupState} {flag : Bool}
    (hbl : buildLoop paths [] false = .ok (st, flag))
    (hs2 : 2 ≤ (sortedSuffixes st []).length)
    (hnone : allInts (sortedSuffixes st []) = none) :
    makePatternF fuel main paths = .error .valueError := by
  have hinv : StInv st := by
    obtain ⟨hst, -⟩ := buildLoop_ok_views hbl
    rw [hst]
    exact StInv.buildSt StInv.nil
  have hne : getGroup st [] ≠ [] := by
    intro hnil
    rw [sortedSuffixes, hnil] at hs2
    simp at hs2
  obtain ⟨ks, hsk⟩ := sortedKeys_head_empty hinv hne
  have hbody : ∀ rec, mkpBody rec main paths = .error .valueError := by
    intro rec
    rw [mkpBody, hbl]
    dsimp only
    rw [hsk]
    exact emitLoop_empty_key_error hs2 (numClause_valueError hnone)
  cases fuel with
  | zero => exact hbody _
  | succ n => exact hbody _

end LibNi

namespace LibNi

/-! ## Single-path computations (claim C8) -/

theorem joinPaths_single (s : Str) : joinPaths [s] = s := by
  simp [joinPaths, List.intercalate]

theorem takeWhile_append_head_false {pr : Char → Bool} {l₂ : Str} {c : Char} {t : Str}
    (hc : pr c = false) (hl₂ : l₂ = c :: t) :
    ∀ {l₁ : Str}, (∀ x ∈ l₁, pr x = true) → (l₁ ++ l₂).takeWhile pr = l₁
  | [], _ => by
    rw [List.nil_append, hl₂]
    exact List.takeWhile_cons_of_neg (by simp [hc])
  | a :: l₁, h => by
    rw [List.cons_append,
      List.takeWhile_cons_of_pos (h a (List.mem_cons_self _ _))]
    exact congrArg (a :: ·)
      (takeWhile_append_head_false hc hl₂ fun x hx => h x (List.mem_cons_of_mem _ hx))

theorem dropWhile_append_head_false {pr : Char → Bool} {l₂ : Str} {c : Char} {t : Str}
    (hc : pr c = false) (hl₂ : l₂ = c :: t) :
    ∀ {l₁ : Str}, (∀ x ∈ l₁, pr x = true) → (l₁ ++ l₂).dropWhile pr = l₂
  | [], _ => by
    rw [List.nil_append, hl₂]
    exact List.dropWhile_cons_of_neg (by simp [hc])
  | a :: l₁, h => by
    rw [List.cons_append,
      List.dropWhile_cons_of_pos (h a (List.mem_cons_self _ _))]
    exact dropWhile_append_head_false hc hl₂ fun x hx => h x (List.mem_cons_of_mem _ hx)

theorem makePattern_single_nondigit {w : Str}
    (hall : ∀ c ∈ w, c.isDigit = false ∧ c ≠ '/') :
    makePattern true [w] = .ok (some w) := by
  have hns : '/' ∉ w := fun hm => (hall _ hm).2 rfl
  have hps : pstrip w = w := pstrip_of_not_mem hns
  have hbare : isBareB w = true := by
    rw [isBareB, hps, hasSlash_false_iff.2 hns]
    rfl
  have hsp : splitPath w = (w, []) := by
    rw [splitPath_eq_bare hbare, hps, splitBare]
    rw [takeWhile_all (fun c hc => by simp [notDigit, (hall c hc).1]),
      dropWhile_all (fun c hc => by simp [notDigit, (hall c hc).1])]
  have hbl : buildLoop [w] [] false = .ok ([(w, [[]])], true) := by
    rw [buildLoop_cons_bare hbare (by simp), hsp]
    rfl
  have hseg : maxSegCount [w] = 1 := by
    rw [maxSegCount_cons, segCount, hps, List.count_eq_zero.2 hns]
    rfl
  rw [makePattern, hseg]
  show mkpBody _ true [w] = _
  rw [mkpBody, hbl]
  dsimp only
  have hkeys : sortedKeys [(w, [[]])] = [w] := rfl
  have hsuf : sortedSuffixes [(w, [[]])] w = [[]] := by
    rw [sortedSuffixes, getGroup, if_pos rfl]
    rfl
  rw [hkeys, emitLoop, hsuf]
  dsimp only
  rw [emitLoop]
  simp [joinPaths_single]

theorem makePattern_single_trailing_slash {p : Str} (hp : p ≠ [])
    (hall : ∀ c ∈ p, c ≠ '/') :
    makePattern true [p ++ ['/']] = .ok (some (p ++ ['/'])) := by
  have hps : pstrip (p ++ ['/']) = p ++ ['/'] := by
    cases p with
    | nil => exact absurd rfl hp
    | cons c t =>
      rw [List.cons_append]
      exact pstrip_of_head_ne (hall c (List.mem_cons_self _ _))
  have hmem : '/' ∈ p ++ ['/'] := List.mem_append_right p (List.mem_singleton.2 rfl)
  have hbare : isBareB (p ++ ['/']) = false := by
    rw [isBareB, hps, hasSlash_iff.2 hmem]
    rfl
  have hsp : splitPath (p ++ ['/']) = (p, []) := by
    rw [splitPath_eq_slash hbare, hps, splitSlash]
    have hpr : ∀ x ∈ p, notSlash x = true := fun x hx => by
      simp [notSlash, hall x hx]
    rw [takeWhile_append_head_false (by simp [notSlash]) rfl hpr,
      dropWhile_append_head_false (by simp [notSlash]) rfl hpr]
    rfl
  have hbl : buildLoop [p ++ ['/']] [] false = .ok ([(p, [[]])], false) := by
    rw [buildLoop_cons_slash hbare, hsp]
    rfl
  have hseg : maxSegCount [p ++ ['/']] = 2 := by
    rw [maxSegCount_cons, segCount, hps, List.count_append]
    rw [List.count_eq_zero.2 (fun hm => hall _ hm rfl)]
    rfl
  rw [makePattern, hseg]
  show mkpBody _ true [p ++ ['/']] = _
  rw [mkpBody, hbl]
  dsimp only
  have hkeys : sortedKeys [(p, [[]])] = [p] := rfl
  have hsuf : sortedSuffixes [(p, [[]])] p = [[]] := by
    rw [sortedSuffixes, getGroup, if_pos rfl]
    rfl
  rw [hkeys, emitLoop, hsuf]
  dsimp only
  rw [emitLoop]
  simp [joinPaths_single]

end LibNi

namespace LibNi

/-! ## Clause shapes -/

theorem clauseOf_single_empty {rec : List Str → Except PyErr (Option Str)}
    {flag : Bool} {st : GroupState} {k : Str} (h : sortedSuffixes st k = [[]]) :
    clauseOf rec flag st k = .ok (some (if flag then k else k ++ ['/'])) := by
  rw [clauseOf, h]
  dsimp only
  cases flag with
  | true => simp
  | false => rfl

theorem clauseOf_multi_shape {rec : List Str → Except PyErr (Option Str)}
    {flag : Bool} {st : GroupState} {k sub : Str}
    (hk : k ≠ []) (h2 : 2 ≤ (sortedSuffixes st k).length)
    (hr : rec (sortedSuffixes st k) = .ok (some sub)) :
    clauseOf rec flag st k =
      .ok (some ((if flag then k else k ++ ['/']) ++
        (if ',' ∈ sub then '{' :: (sub ++ ['}']) else sub))) := by
  cases hs : sortedSuffixes st k with
  | nil => rw [hs] at h2; simp at h2
  | cons v₀ tl =>
    cases tl with
    | nil => rw [hs] at h2; simp at h2
    | cons v₁ vs =>
      rw [clauseOf, hs]
      dsimp only
      rw [if_pos hk]
      rw [hs] at hr
      rw [hr]
      dsimp only
      rw [braceWrap]
      cases flag with
      | true => simp
      | false => simp

end LibNi

namespace LibNi

/-! ## Claim theorems -/

/-- C1 (counterexample): the top-level call does not always return a string on a
non-empty shape-uniform input.  For `['1', '3']` (bare tokens, shape-uniform) the
top-level empty-prefix numeric group is non-contiguous and the `return None` of
line 334 is executed regardless of `_main`, so `make_pattern(['1','3'])` returns
the `None` sentinel itself. -/
theorem makePattern_top_level_sentinel_cex :
    makePattern true ["1".data, "3".data] = .ok none ∧
    shapeUniformB ["1".data, "3".data] = true := by
  decide

/-- C1 (amended): the `None` sentinel produced by a nested recursive call is either
absorbed by the outermost call — which then returns the plain comma-join of the
original, unmodified input paths — or the outermost call behaves exactly like a
non-outermost call (same string, same sentinel, same exception).  In particular a
success of the non-outermost computation is returned unchanged by the outermost
call; but the outermost call is not total: its own top-level empty-prefix numeric
failure returns the sentinel (and a `ValueError` can escape). -/
theorem makePattern_top_level_fallback_amended :
    (∀ paths : List Str,
        makePattern true paths = makePattern false paths ∨
        makePattern true paths = .ok (some (joinPaths paths))) ∧
    (∀ (paths : List Str) (s : Str),
        makePattern false paths = .ok (some s) →
        makePattern true paths = .ok (some s)) :=
  ⟨fun paths => makePatternF_main_or_fallback _ paths,
   fun _ _ h => makePatternF_false_some h⟩

/-- C1 (witness for the amended theorem at a concrete input). -/
theorem makePattern_top_level_fallback_amended_witness :
    makePattern true ["a1".data] = .ok (some "a1".data) :=
  makePattern_top_level_fallback_amended.2 ["a1".data] "a1".data (by decide)

/-- C2: `make_pattern` reproduces the seven reference scenarios of
`_test_make_pattern` (lines 341-363) exactly. -/
theorem makePattern_reference_scenarios :
    makePattern true ["Dev1/ao1".data, "Dev1/ao2".data, "Dev1/ao3".data, "Dev1/ao4".data,
        "Dev1/ao5".data, "Dev1/ao6".data, "Dev1/ao7".data] =
      .ok (some "Dev1/ao1:7".data) ∧
    makePattern true ["Dev1/ao1".data, "Dev1/ao2".data, "Dev1/ao3".data, "Dev1/ao4".data,
        "Dev1/ao5".data, "Dev1/ao6".data, "Dev1/ao7".data, "Dev0/ao1".data] =
      .ok (some "Dev0/ao1,Dev1/ao1:7".data) ∧
    makePattern true ["Dev1/ao1".data, "Dev1/ao2".data, "Dev1/ao3".data, "Dev1/ao4".data,
        "Dev1/ao5".data, "Dev1/ao6".data, "Dev1/ao7".data, "Dev0/ao1".data,
        "Dev0/ao0".data] =
      .ok (some "Dev0/ao0:1,Dev1/ao1:7".data) ∧
    makePattern true ["Dev1/ao1".data, "Dev1/ao2".data, "Dev1/ao3".data, "Dev1/ao4".data,
        "Dev1/ao5".data, "Dev1/ao6".data, "Dev1/ao7".data, "Dev0/ao1".data,
        "Dev0/ao0".data, "Dev1/ai1".data, "Dev1/ai2".data, "Dev1/ai3".data] =
      .ok (some "Dev0/ao0:1,Dev1/\x7bai1:3,ao1:7\x7d".data) ∧
    makePattern true ["Dev1/ao1".data, "Dev1/ao2".data, "Dev1/ao3".data, "Dev1/ao4".data,
        "Dev1/ao5".data, "Dev1/ao6".data, "Dev1/ao7".data, "Dev0/ao1".data,
        "Dev0/ao0".data, "Dev1/ai1".data, "Dev1/ai2".data, "Dev1/ai3".data,
        "Dev2/port0/line0".data] =
      .ok (some "Dev0/ao0:1,Dev1/\x7bai1:3,ao1:7\x7d,Dev2/port0/line0".data) ∧
    makePattern true ["Dev1/ao1".data, "Dev1/ao2".data, "Dev1/ao3".data, "Dev1/ao4".data,
        "Dev1/ao5".data, "Dev1/ao6".data, "Dev1/ao7".data, "Dev0/ao1".data,
        "Dev0/ao0".data, "Dev1/ai1".data, "Dev1/ai2".data, "Dev1/ai3".data,
        "Dev2/port0/line0".data, "Dev2/port0/line1".data] =
      .ok (some "Dev0/ao0:1,Dev1/\x7bai1:3,ao1:7\x7d,Dev2/port0/line0:1".data) ∧
    makePattern true ["Dev1/ao1".data, "Dev1/ao2".data, "Dev1/ao3".data, "Dev1/ao4".data,
        "Dev1/ao5".data, "Dev1/ao6".data, "Dev1/ao7".data, "Dev0/ao1".data,
        "Dev0/ao0".data, "Dev1/ai1".data, "Dev1/ai2".data, "Dev1/ai3".data,
        "Dev2/port0/line0".data, "Dev2/port0/line1".data, "Dev2/port1/line0".data,
        "Dev2/port1/line1".data] =
      .ok (some
        "Dev0/ao0:1,Dev1/\x7bai1:3,ao1:7\x7d,Dev2/\x7bport0/line0:1,port1/line0:1\x7d".data) := by
  decide

/-- C3 (counterexample): the claim's de-duplication of parsed integers does not
happen in the code.  The group `{'1', '01'}` holds two distinct candidate strings
denoting the same integer; the claim (dedup, then `min == max`) would emit `'1'`,
but `sorted(int(i) for i in lst)` keeps both values, `[1,1] != range(1,2)`, and
the code signals the sentinel, so the top level falls back to `'a1,a01'` instead
of compressing to `'a1'`. -/
theorem numClause_duplicate_ints_cex :
    numClause ["1".data, "01".data] = .ok none ∧
    makePattern false ["1".data, "01".data] = .ok none ∧
    makePattern true ["a1".data, "a01".data] = .ok (some "a1,a01".data) ∧
    "a1,a01".data ≠ "a1".data := by
  decide

/-- C3 (amended): for an empty-prefix group with at least two candidates, all
candidates are parsed as integers (kept with multiplicity, one per distinct
candidate string) and sorted ascending; a clause is emitted iff the sorted list
is exactly the gap-free, duplicate-free run `a, a+1, ..., b` with `a < b`, and
then the clause is `str(a) ++ ':' ++ str(b)`.  Duplicate integer values (and
hence the `min == max` case) never emit a clause; the sentinel is signalled
instead. -/
theorem numClause_range_iff_amended :
    ∀ lst : List Str, 2 ≤ lst.length →
      ((∃ s, numClause lst = .ok (some s)) ↔
        (∃ ints a b, allInts lst = some ints ∧
          List.insertionSort (· ≤ ·) ints = intRangeList a b ∧ a < b)) ∧
      (∀ (ints : List Int) (a b : Int), allInts lst = some ints →
        List.insertionSort (· ≤ ·) ints = intRangeList a b → a < b →
        numClause lst = .ok (some (intStr a ++ [':'] ++ intStr b))) := by
  intro lst hlen
  refine ⟨⟨?_, ?_⟩, ?_⟩
  · rintro ⟨s, hs⟩
    obtain ⟨ints, a, b, h1, h2, h3, -⟩ := numClause_ok_some hlen hs
    exact ⟨ints, a, b, h1, h2, h3⟩
  · rintro ⟨ints, a, b, h1, h2, h3⟩
    exact ⟨_, numClause_range_emit hlen h1 h2 h3⟩
  · intro ints a b h1 h2 h3
    exact numClause_range_emit hlen h1 h2 h3

/-- C3 (witness for the amended theorem at a concrete input). -/
theorem numClause_range_iff_amended_witness :
    numClause ["3".data, "4".data] = .ok (some (intStr 3 ++ [':'] ++ intStr 4)) :=
  (numClause_range_iff_amended ["3".data, "4".data] (by decide)).2
    [3, 4] 3 4 (by decide) (by decide) (by decide)

/-- C4 (counterexample): a non-integer candidate in an empty-prefix group does not
signal the sentinel — `int('1x')` raises `ValueError`, which escapes through every
call including the outermost one, so no string is returned at the top level. -/
theorem makePattern_valueError_cex :
    makePattern true ["1x".data, "2y".data] = .error .valueError ∧
    shapeUniformB ["1x".data, "2y".data] = true := by
  decide

/-- C4 (amended): when an empty-prefix group with at least two candidates contains
a candidate that is not a valid integer, the `int` conversion raises `ValueError`;
the error propagates out of the whole call (for any fuel and for both `_main`
values) instead of being converted to the sentinel, because the empty prefix is
always the first key of the sorted emission order. -/
theorem numClause_valueError_propagation_amended :
    (∀ lst : List Str, allInts lst = none → numClause lst = .error .valueError) ∧
    (∀ (paths : List Str) (st : GroupState) (flag : Bool) (fuel : Nat) (main : Bool),
      buildLoop paths [] false = .ok (st, flag) →
      2 ≤ (sortedSuffixes st []).length →
      allInts (sortedSuffixes st []) = none →
      makePatternF fuel main paths = .error .valueError) :=
  ⟨fun _ h => numClause_valueError h,
   fun _ _ _ _ _ hbl h2 hn => makePatternF_valueError hbl h2 hn⟩

/-- C4 (witness for the amended theorem at a concrete input). -/
theorem numClause_valueError_propagation_amended_witness :
    numClause ["1x".data] = .error .valueError ∧
    makePatternF 1 true ["1x".data, "2y".data] = .error .valueError :=
  ⟨numClause_valueError_propagation_amended.1 ["1x".data] (by decide),
   numClause_valueError_propagation_amended.2 ["1x".data, "2y".data]
     [([], ["1x".data, "2y".data])] true 1 true (by decide) (by decide) (by decide)⟩

/-- C5 (counterexample): duplicates are not always invisible.  When the compact
form fails, the fallback `','.join(paths)` joins the *original* list, so the
duplicated entry reappears: `['a1','a3','a1']` gives `'a1,a3,a1'` while the
de-duplicated list gives `'a1,a3'`. -/
theorem makePattern_duplicates_cex :
    makePattern true ["a1".data, "a3".data, "a1".data] = .ok (some "a1,a3,a1".data) ∧
    dedupF ["a1".data, "a3".data, "a1".data] = ["a1".data, "a3".data] ∧
    makePattern true ["a1".data, "a3".data] = .ok (some "a1,a3".data) ∧
    shapeUniformB ["a1".data, "a3".data, "a1".data] = true ∧
    "a1,a3,a1".data ≠ "a1,a3".data := by
  decide

/-- C5 (amended): the grouping itself collapses duplicates — a non-outermost call
returns identical results on a list and on its (first-occurrence) de-duplicated
list — and whenever the compact computation succeeds, the top-level output on
both lists is that same string.  Only the top-level fallback join reflects the
duplicates. -/
theorem makePattern_dedup_amended :
    (∀ paths : List Str, makePattern false paths = makePattern false (dedupF paths)) ∧
    (∀ (paths : List Str) (s : Str), makePattern false paths = .ok (some s) →
      makePattern true paths = .ok (some s) ∧
      makePattern true (dedupF paths) = .ok (some s)) := by
  refine ⟨makePattern_false_dedup, ?_⟩
  intro paths s h
  constructor
  · rw [makePattern] at h ⊢
    exact makePatternF_false_some h
  · have h2 : makePattern false (dedupF paths) = .ok (some s) := by
      rw [← makePattern_false_dedup]
      exact h
    rw [makePattern] at h2 ⊢
    exact makePatternF_false_some h2

/-- C5 (witness for the amended theorem at a concrete input). -/
theorem makePattern_dedup_amended_witness :
    makePattern false ["a1".data, "a1".data] =
      makePattern false (dedupF ["a1".data, "a1".data]) ∧
    makePattern true ["a1".data, "a1".data] = .ok (some "a1".data) ∧
    makePattern true (dedupF ["a1".data, "a1".data]) = .ok (some "a1".data) :=
  ⟨makePattern_dedup_amended.1 ["a1".data, "a1".data],
   (makePattern_dedup_amended.2 ["a1".data, "a1".data] "a1".data (by decide)).1,
   (makePattern_dedup_amended.2 ["a1".data, "a1".data] "a1".data (by decide)).2⟩

/-- C6 (counterexample): the output is not order-independent.  With the
non-contiguous input `['a1','a3']` the compact form fails and the fallback joins
the paths in input order, so the two orders give different strings. -/
theorem makePattern_order_cex :
    List.Perm ["a3".data, "a1".data] ["a1".data, "a3".data] ∧
    shapeUniformB ["a3".data, "a1".data] = true ∧
    makePattern true ["a1".data, "a3".data] = .ok (some "a1,a3".data) ∧
    makePattern true ["a3".data, "a1".data] = .ok (some "a3,a1".data) ∧
    "a1,a3".data ≠ "a3,a1".data := by
  decide

/-- C6 (amended): for shape-uniform inputs the compact computation (a
non-outermost call) is permutation-invariant, and whenever it succeeds the
top-level output on every permutation is that same string.  Only the top-level
fallback join depends on the input order. -/
theorem makePattern_perm_amended :
    ∀ paths₁ paths₂ : List Str, paths₁.Perm paths₂ → shapeUniform paths₁ →
      makePattern false paths₁ = makePattern false paths₂ ∧
      (∀ s : Str, makePattern false paths₁ = .ok (some s) →
        makePattern true paths₁ = .ok (some s) ∧
        makePattern true paths₂ = .ok (some s)) := by
  intro p₁ p₂ hperm huni
  have hmem : ∀ p, p ∈ p₁ ↔ p ∈ p₂ := fun p => hperm.mem_iff
  refine ⟨makePattern_false_of_mem_iff hmem huni, ?_⟩
  intro s h
  constructor
  · rw [makePattern] at h ⊢
    exact makePatternF_false_some h
  · have h2 : makePattern false p₂ = .ok (some s) := by
      rw [← makePattern_false_of_mem_iff hmem huni]
      exact h
    rw [makePattern] at h2 ⊢
    exact makePatternF_false_some h2

/-- C6 (witness for the amended theorem at a concrete input). -/
theorem makePattern_perm_amended_witness :
    makePattern false ["a1".data, "b2".data] = makePattern false ["b2".data, "a1".data] ∧
    makePattern true ["a1".data, "b2".data] = .ok (some "a1,b2".data) ∧
    makePattern true ["b2".data, "a1".data] = .ok (some "a1,b2".data) :=
  ⟨(makePattern_perm_amended ["a1".data, "b2".data] ["b2".data, "a1".data]
      (by decide) (show shapeUniformB ["a1".data, "b2".data] = true by decide)).1,
   ((makePattern_perm_amended ["a1".data, "b2".data] ["b2".data, "a1".data]
      (by decide) (show shapeUniformB ["a1".data, "b2".data] = true by decide)).2
      "a1,b2".data (by decide)).1,
   ((makePattern_perm_amended ["a1".data, "b2".data] ["b2".data, "a1".data]
      (by decide) (show shapeUniformB ["a1".data, "b2".data] = true by decide)).2
      "a1,b2".data (by decide)).2⟩

/-- C7: every successful non-fallback result is the comma-join of one clause per
prefix, the prefixes being iterated in strictly ascending lexicographic order;
and for a multi-suffix group with non-empty prefix whose recursive sub-call
succeeds with `sub`, the emitted clause is the prefix (followed by `'/'` in slash
mode, bare in bare-token mode) followed by `sub` wrapped in braces iff `sub`
contains a comma. -/
theorem makePattern_clause_structure :
    ∀ (fuel : Nat) (paths : List Str) (s : Str) (st : GroupState) (flag : Bool),
      makePatternF (fuel + 1) false paths = .ok (some s) →
      buildLoop paths [] false = .ok (st, flag) →
      (sortedKeys st).Sorted (· < ·) ∧
      (∃ cs, clausesOf (makePatternF fuel false) flag st (sortedKeys st) = some cs ∧
        s = joinPaths cs) ∧
      (∀ k ∈ sortedKeys st, k ≠ [] → 2 ≤ (sortedSuffixes st k).length →
        ∀ sub : Str, makePatternF fuel false (sortedSuffixes st k) = .ok (some sub) →
        clauseOf (makePatternF fuel false) flag st k =
          .ok (some ((if flag then k else k ++ ['/']) ++
            (if ',' ∈ sub then '{' :: (sub ++ ['}']) else sub)))) := by
  intro fuel paths s st flag hmk hbl
  have hinv : StInv st := by
    obtain ⟨hst, -⟩ := buildLoop_ok_views hbl
    rw [hst]
    exact StInv.buildSt StInv.nil
  refine ⟨sortedKeys_sorted_lt hinv, ?_, ?_⟩
  · have hmk' : mkpBody (makePatternF fuel false) false paths = .ok (some s) := hmk
    rw [mkpBody, hbl] at hmk'
    dsimp only at hmk'
    obtain ⟨cs, hcs, hjoin⟩ := emitLoop_false_decomp hmk'
    exact ⟨cs, hcs, by simpa using hjoin⟩
  · intro k _ hkne h2 sub hsub
    exact clauseOf_multi_shape hkne h2 hsub

/-- C7 (witness at a concrete input). -/
theorem makePattern_clause_structure_witness :
    (sortedKeys [("x".data, ["a1".data, "a2".data])]).Sorted (· < ·) ∧
    clauseOf (makePatternF 1 false) false [("x".data, ["a1".data, "a2".data])] "x".data =
      .ok (some "x/a1:2".data) := by
  have h := makePattern_clause_structure 1 ["x/a1".data, "x/a2".data] "x/a1:2".data
    [("x".data, ["a1".data, "a2".data])] false (by decide) (by decide)
  refine ⟨h.1, ?_⟩
  have h2 := h.2.2 "x".data (by decide) (by decide) (by decide) "a1:2".data (by decide)
  rw [h2]
  decide

/-- C8 (counterexample): in slash mode an empty suffix candidate does not emit the
bare prefix: `make_pattern(['ab/'])` emits `prefix + '/' + '' = 'ab/'`, not
`'ab'`. -/
theorem makePattern_trailing_slash_cex :
    makePattern true ["ab/".data] = .ok (some "ab/".data) ∧
    "ab/".data ≠ "ab".data := by
  decide

/-- C8 (amended): a group holding exactly the empty suffix candidate emits the
prefix alone in bare-token mode, and the prefix followed by `'/'` in slash mode.
At the whole-function level: an all-non-digit slash-free word compresses to
itself, and a slash-free word followed by `'/'` compresses to itself (with its
trailing slash kept). -/
theorem clause_empty_suffix_amended :
    (∀ (rec : List Str → Except PyErr (Option Str)) (flag : Bool)
        (st : GroupState) (k : Str), sortedSuffixes st k = [[]] →
      clauseOf rec flag st k = .ok (some (if flag then k else k ++ ['/']))) ∧
    (∀ w : Str, (∀ c ∈ w, c.isDigit = false ∧ c ≠ '/') →
      makePattern true [w] = .ok (some w)) ∧
    (∀ p : Str, p ≠ [] → (∀ c ∈ p, c ≠ '/') →
      makePattern true [p ++ ['/']] = .ok (some (p ++ ['/']))) :=
  ⟨fun _ _ _ _ h => clauseOf_single_empty h,
   fun _ hall => makePattern_single_nondigit hall,
   fun _ hp hall => makePattern_single_trailing_slash hp hall⟩

/-- C8 (witness for the amended theorem at concrete inputs). -/
theorem clause_empty_suffix_amended_witness :
    clauseOf (fun _ => Except.ok none) true [("k".data, [([] : Str)])] "k".data =
      .ok (some "k".data) ∧
    makePattern true ["Dev".data] = .ok (some "Dev".data) ∧
    makePattern true ["ab".data ++ ['/']] = .ok (some ("ab".data ++ ['/'])) := by
  refine ⟨?_, ?_, ?_⟩
  · have h := clause_empty_suffix_amended.1 (fun _ => Except.ok none) true
      [("k".data, [([] : Str)])] "k".data (by decide)
    rw [h]
    rfl
  · exact clause_empty_suffix_amended.2.1 "Dev".data (by decide)
  · exact clause_empty_suffix_amended.2.2 "ab".data (by decide) (by decide)

/-- C9: `make_pattern` terminates on every input: a recursive call only happens
for a group with non-empty prefix, whose suffix candidates are strictly shorter
than the paths they were split from, and running the recursion with fuel
`maxSegCount paths` (the maximum path segment count) is already stable — any
larger fuel computes the same result, i.e. the recursion depth is bounded by the
maximum segment count. -/
theorem makePattern_termination_depth :
    (∀ p : Str, (splitPath p).1 ≠ [] → (splitPath p).2.length < p.length) ∧
    (∀ (fuel : Nat) (main : Bool) (paths : List Str), maxSegCount paths ≤ fuel →
      makePatternF fuel main paths = makePattern main paths) :=
  ⟨fun _ h => splitPath_suffix_shorter h,
   fun fuel main paths h => makePatternF_stable fuel main paths h⟩

/-- C9 (witness at a concrete input). -/
theorem makePattern_termination_depth_witness :
    (splitPath "Dev1/ao1".data).2.length < "Dev1/ao1".data.length ∧
    makePatternF 5 true ["Dev1/ao1".data] = makePattern true ["Dev1/ao1".data] :=
  ⟨makePattern_termination_depth.1 "Dev1/ao1".data (by decide),
   makePattern_termination_depth.2 5 true ["Dev1/ao1".data] (by decide)⟩

/-- C10 (counterexample): a shape-uniform top-level input can still raise
`AssertionError`: both paths of `['Dev/a/1','Dev/b']` contain `'/'`, but the
recursive call receives the mixed-shape suffix set `{'a/1','b'}`, and (with the
modelled sorted set order, `'a/1'` first) the bare token `'b'` is processed while
`patterns` is non-empty and `flag` false, so the line-290 assertion fires. -/
theorem makePattern_assertion_cex :
    makePattern true ["Dev/a/1".data, "Dev/b".data] = .error .assertionError ∧
    shapeUniformB ["Dev/a/1".data, "Dev/b".data] = true := by
  decide

/-- C10 (amended): the assertion can never fail in the call that receives the
shape-uniform list itself: the grouping pass over a shape-uniform input always
completes without an exception.  (Recursive sub-calls, however, can receive
mixed-shape suffix sets on which the assertion fires — see the counterexample.) -/
theorem buildLoop_uniform_no_assert_amended :
    ∀ paths : List Str, shapeUniform paths →
      exceptOk (buildLoop paths [] false) = true := by
  intro paths h
  obtain ⟨out, hout⟩ := buildLoop_uniform_ok h
  rw [hout]
  rfl

/-- C10 (witness for the amended theorem at a concrete input). -/
theorem buildLoop_uniform_no_assert_amended_witness :
    exceptOk (buildLoop ["a/1".data, "b/2".data] [] false) = true :=
  buildLoop_uniform_no_assert_amended ["a/1".data, "b/2".data]
    (show shapeUniformB ["a/1".data, "b/2".data] = true by decide)

end LibNi
